import Mathlib

/-!
# Verification of the scrypt mask brute-forcer

A shallow embedding, in Lean 4, of the Go program that enumerates candidate
passwords from a per-position character-class mask and checks each candidate
against a stored scrypt credential record.

Embedded pieces:
* `getCharset`, `calculateTotalCombinations`, `generatePasswords` — the
  candidate generator (odometer enumeration over per-position charsets);
* `parseFile`, `verifyPassword` — the credential-record parser and the
  verification oracle (the external scrypt primitive is a parameter);
* a small-step transition system modelling the worker pool with its shared
  atomic `found` flag, attempt counter and result channel;
* the record serialisation of the companion generation utility (gen.go).

The scrypt key-derivation function itself is external to the repository and
is treated as an opaque deterministic parameter `kdf` throughout, exactly as
the program treats it (an expensive oracle returning either a derived key or
an error).
-/

/-- Charset table: `getCharset` from the source. A mask symbol maps to its
ordered alphabet; unknown symbols map to the empty string. -/
def getCharset (m : Char) : String :=
  match m with
  | 'a' => "qwertyuiopasdfghjklzxcvbnmQWERTYUIOPASDFGHJKLZXCVBNM1234567890"
  | 'd' => "1234567890"
  | 'l' => "qwertyuiopasdfghjklzxcvbnm"
  | 'u' => "QWERTYUIOPASDFGHJKLZXCVBNM"
  | 's' => "!@#$%^&*()_+-=[]{}|;:,.<>?"
  | _ => ""

/-- The true (unbounded) product of per-position charset sizes: the
mathematical SearchSpace of a mask. -/
def searchSpaceNat (mask : String) : Nat :=
  (mask.toList.map (fun m => (getCharset m).length)).prod

/-- `calculateTotalCombinations` from the source: the product of charset
sizes accumulated in a Go `uint64`, i.e. every multiplication wraps
modulo `2 ^ 64`. -/
def calculateTotalCombinations (mask : String) : Nat :=
  mask.toList.foldl (fun total m => total * (getCharset m).length % 2 ^ 64) 1

/-- One mixed-radix increment with carry over digit bounds `sizes`,
advancing the rightmost digit first and carrying left, as in the
`for i := len(ind) - 1; i >= 0 && carry; i--` loop of `generatePasswords`.
`none` means the carry ran off the leftmost digit (enumeration exhausted);
a digit that overflows its own bound is reset to `0`. -/
def odoInc : List Nat → List Nat → Option (List Nat)
  | _, [] => none
  | [], _ :: _ => none
  | s :: _, [i] => if i + 1 < s then some [i + 1] else none
  | s :: ss, i :: j :: is =>
    match odoInc ss (j :: is) with
    | some is' => some (i :: is')
    | none => if i + 1 < s then some ((i + 1) :: (j :: is).map (fun _ => 0)) else none

/-- The emission loop of `generatePasswords`, fuelled: emit the current index
vector, increment, stop on carry-out.  With fuel at least the number of
remaining emissions this is exactly the Go `for` loop. -/
def odoRun : Nat → List Nat → List Nat → List (List Nat)
  | 0, _, _ => []
  | fuel + 1, sizes, ind =>
    ind :: match odoInc sizes ind with
           | some ind' => odoRun fuel sizes ind'
           | none => []

/-- Build the emitted password from the per-position charsets and the current
index vector: `password[i] = charsets[i][ind[i]]`. -/
def emitPassword (charsets : List (List Char)) (ind : List Nat) : String :=
  String.mk ((charsets.zip ind).map (fun p => p.1.getD p.2 ' '))

/-- The per-position charsets computed at the top of `generatePasswords`:
`charsets[i] = getCharset(mask[i])`. -/
def maskCharsets (mask : String) : List (List Char) :=
  mask.toList.map (fun m => (getCharset m).toList)

/-- `generatePasswords` from the source, as the full finite sequence of
candidate strings sent on the output channel before it is closed.
The mask's charsets are computed first; if any position has an unknown
symbol (empty charset) the function aborts having emitted nothing.
Otherwise the odometer loop runs from the all-zeros index vector until
carry-out.  Fuel `searchSpaceNat mask` is proved sufficient below. -/
def generatePasswords (mask : String) : List String :=
  if (maskCharsets mask).any (fun cs => cs.isEmpty) then
    []
  else
    (odoRun (searchSpaceNat mask) ((maskCharsets mask).map List.length)
      ((maskCharsets mask).map (fun _ => 0))).map (emitPassword (maskCharsets mask))

/-- Specification-side enumeration: all index vectors over digit bounds
`sizes`, in odometer order (rightmost fastest ⇔ lexicographic with the
leftmost digit most significant). -/
def odoEnum : List Nat → List (List Nat)
  | [] => [[]]
  | s :: ss => (List.range s).flatMap (fun j => (odoEnum ss).map (fun v => j :: v))

/-- Specification-side enumeration starting from an arbitrary valid index
vector: the tail of `odoEnum` from that point on. -/
def odoEnumFrom : List Nat → List Nat → List (List Nat)
  | [], [] => [[]]
  | s :: ss, i :: is =>
    (odoEnumFrom ss is).map (fun v => i :: v) ++
      (List.range' (i + 1) (s - (i + 1))).flatMap (fun j => (odoEnum ss).map (fun v => j :: v))
  | [], _ :: _ => []
  | _ :: _, [] => []

/-- Validity of an index vector for digit bounds `sizes`. -/
def ValidInd (sizes ind : List Nat) : Prop :=
  List.Forall₂ (fun s i => i < s) sizes ind

/-- The usage guard at the top of `main`: the search only starts when the
mask flag is non-empty and a positional argument (the hash file) is given;
otherwise `main` prints usage text and exits. -/
def cliAccepts (maskFlag : String) (nArgs : Nat) : Bool :=
  !(maskFlag == "" || nArgs < 1)

/-- The parsed credential record (`ScryptData` in the source).  `int` fields
are Go machine integers, modelled as `Int`; the salt and digest are byte
slices, modelled as lists of byte values. -/
structure ScryptData where
  N : Int
  R : Int
  P : Int
  KeyLen : Int
  Salt : List Nat
  Hash : List Nat

/-- The external scrypt primitive `scrypt.Key(password, salt, N, r, p,
keyLen)`, a deterministic function producing either the derived key or an
error (`none`) for structurally invalid parameters.  It lives outside the
repository, so the development is parametric in it. -/
abbrev KDF := List Nat → List Nat → Int → Int → Int → Int → Option (List Nat)

/-- UTF-8 encoding of one character, as Go's `[]byte(string)` produces. -/
def charUTF8 (c : Char) : List Nat :=
  let n := c.toNat
  if n < 0x80 then [n]
  else if n < 0x800 then [0xC0 ||| (n >>> 6), 0x80 ||| (n &&& 0x3F)]
  else if n < 0x10000 then
    [0xE0 ||| (n >>> 12), 0x80 ||| ((n >>> 6) &&& 0x3F), 0x80 ||| (n &&& 0x3F)]
  else
    [0xF0 ||| (n >>> 18), 0x80 ||| ((n >>> 12) &&& 0x3F),
      0x80 ||| ((n >>> 6) &&& 0x3F), 0x80 ||| (n &&& 0x3F)]

/-- Go's `[]byte(password)`: the UTF-8 bytes of the string. -/
def goBytes (s : String) : List Nat := s.toList.flatMap charUTF8

/-- `verifyPassword` from the source: derive a key with the record's
parameters; an error from the primitive is absorbed into `false`
(no-match); otherwise compare byte-for-byte with the stored digest. -/
def verifyPassword (kdf : KDF) (password : String) (data : ScryptData) : Bool :=
  match kdf (goBytes password) data.Salt data.N data.R data.P data.KeyLen with
  | none => false
  | some hash => hash == data.Hash

/-- `computeScryptHash` from gen.go: a direct call of the primitive. -/
def computeScryptHash (kdf : KDF) (password : String) (salt : List Nat)
    (N r p keyLen : Int) : Option (List Nat) :=
  kdf (goBytes password) salt N r p keyLen

/-- The ASCII part of Go's `unicode.IsSpace`, which `strings.TrimSpace`
trims from both ends.  (The full Go predicate also covers non-ASCII
Unicode spaces; records produced by gen.go contain none of either.) -/
def goIsSpace (c : Char) : Bool :=
  c == ' ' || c == '\t' || c == '\n' || c == '\r' ||
    c == Char.ofNat 0x0B || c == Char.ofNat 0x0C

/-- `strings.TrimSpace` on the character list of the record. -/
def goTrimSpace (l : List Char) : List Char :=
  ((l.dropWhile goIsSpace).reverse.dropWhile goIsSpace).reverse

/-- `strings.Split` with a one-character separator. -/
def splitOnChar (sep : Char) : List Char → List (List Char)
  | [] => [[]]
  | c :: cs =>
    if c = sep then [] :: splitOnChar sep cs
    else
      match splitOnChar sep cs with
      | [] => [[c]]
      | p :: ps => (c :: p) :: ps

/-- Value of one decimal digit character, as `strconv.Atoi` reads it. -/
def digitVal (c : Char) : Option Nat :=
  if '0' ≤ c ∧ c ≤ '9' then some (c.toNat - '0'.toNat) else none

/-- Decimal digits to a number; any non-digit character fails. -/
def parseNatDigits (l : List Char) : Option Nat :=
  l.foldl (fun acc c => acc.bind (fun a => (digitVal c).map (fun d => a * 10 + d)))
    (some 0)

/-- `strconv.Atoi`: optional sign, then at least one decimal digit.
(Go additionally range-checks against 64-bit `int`; the records exercised
here are always in range.) -/
def goAtoi (l : List Char) : Option Int :=
  match l with
  | [] => none
  | c :: rest =>
    if c = '+' then
      if rest.isEmpty then none else (parseNatDigits rest).map Int.ofNat
    else if c = '-' then
      if rest.isEmpty then none else (parseNatDigits rest).map (fun n => -(n : Int))
    else (parseNatDigits (c :: rest)).map Int.ofNat

/-- Value of one hexadecimal digit character, as `hex.DecodeString` reads it. -/
def hexDigitVal (c : Char) : Option Nat :=
  if '0' ≤ c ∧ c ≤ '9' then some (c.toNat - '0'.toNat)
  else if 'a' ≤ c ∧ c ≤ 'f' then some (c.toNat - 'a'.toNat + 10)
  else if 'A' ≤ c ∧ c ≤ 'F' then some (c.toNat - 'A'.toNat + 10)
  else none

/-- `hex.DecodeString`: an even number of hex digits to bytes. -/
def hexDecode : List Char → Option (List Nat)
  | [] => some []
  | [_] => none
  | c1 :: c2 :: rest =>
    match hexDigitVal c1, hexDigitVal c2, hexDecode rest with
    | some hi, some lo, some bs => some ((hi * 16 + lo) :: bs)
    | _, _, _ => none

/-- Lowercase hex digit for a value below 16, as `hex.EncodeToString` emits. -/
def hexDigitChar (n : Nat) : Char :=
  if n < 10 then Char.ofNat ('0'.toNat + n) else Char.ofNat ('a'.toNat + n - 10)

/-- `hex.EncodeToString`: two lowercase hex digits per byte. -/
def hexEncode (bs : List Nat) : List Char :=
  bs.flatMap (fun b => [hexDigitChar (b / 16), hexDigitChar (b % 16)])

/-- Decimal digits of a number, least significant first. -/
def natToDigitsRev (n : Nat) : List Nat :=
  if h : n < 10 then [n]
  else n % 10 :: natToDigitsRev (n / 10)
decreasing_by exact Nat.div_lt_self (by omega) (by omega)

/-- Decimal rendering of a natural number, as `fmt.Sprintf("%d", ·)`. -/
def natToDecimal (n : Nat) : List Char :=
  (natToDigitsRev n).reverse.map (fun d => Char.ofNat ('0'.toNat + d))

/-- Decimal rendering of a Go `int`: a leading minus for negatives. -/
def intToDecimal (i : Int) : List Char :=
  if i < 0 then '-' :: natToDecimal i.natAbs else natToDecimal i.toNat

/-- The six-field record emitted by gen.go:
`fmt.Sprintf("%d*%d*%d*%d*%s*%s", N, r, p, keyLen, hex(salt), hex(hash))`. -/
def genRecord (N r p keyLen : Int) (salt hash : List Nat) : List Char :=
  intToDecimal N ++ '*' :: (intToDecimal r ++ '*' :: (intToDecimal p ++
    '*' :: (intToDecimal keyLen ++ '*' :: (hexEncode salt ++ '*' :: hexEncode hash))))

/-- `parseFile` from the source, applied to the file's content: trim
whitespace, split on `*`, require exactly six fields, parse four integers
and two hex strings.  All parse failures collapse to `none` (the source
distinguishes them only in the error message). -/
def parseFile (content : List Char) : Option ScryptData :=
  match splitOnChar '*' (goTrimSpace content) with
  | [p0, p1, p2, p3, p4, p5] =>
    match goAtoi p0, goAtoi p1, goAtoi p2, goAtoi p3, hexDecode p4, hexDecode p5 with
    | some n, some r, some p, some k, some salt, some hash =>
      some ⟨n, r, p, k, salt, hash⟩
    | _, _, _, _, _, _ => none
  | _ => none

/-- Control point of one worker goroutine, between its atomic actions.
Pure local computation (building the candidate, running the expensive
verification) is folded into the adjacent shared-memory step, which does
not change the set of observable shared-state histories. -/
inductive WorkerPC where
  | idle : WorkerPC
  | gotCand : String → WorkerPC
  | preCount : String → WorkerPC
  | atCAS : String → WorkerPC
  | sending : String → WorkerPC
  | draining : WorkerPC
  | finished : WorkerPC
deriving DecidableEq

/-- Shared state of the search: the not-yet-consumed candidate stream
(`pending`; the channel is closed exactly when it is empty and the
generator is finished), the atomic `found` flag, the atomic `uint64`
attempt counter, the contents of the result channel, and every worker's
control point. -/
structure PoolState where
  pending : List String
  found : Bool
  tried : Nat
  delivered : List String
  workers : List WorkerPC

/-- One atomic step of the worker pool of `worker`, parametric in the
external KDF and the target credential.  The counter is a Go `uint64`, so
its increment wraps modulo `2 ^ 64`. -/
inductive PoolStep (kdf : KDF) (data : ScryptData) : PoolState → PoolState → Prop where
  | take (w₁ w₂ : List WorkerPC) (c : String) (rest : List String)
      (found : Bool) (tried : Nat) (delivered : List String) :
      PoolStep kdf data
        ⟨c :: rest, found, tried, delivered, w₁ ++ .idle :: w₂⟩
        ⟨rest, found, tried, delivered, w₁ ++ .gotCand c :: w₂⟩
  | takeClosed (w₁ w₂ : List WorkerPC)
      (found : Bool) (tried : Nat) (delivered : List String) :
      PoolStep kdf data
        ⟨[], found, tried, delivered, w₁ ++ .idle :: w₂⟩
        ⟨[], found, tried, delivered, w₁ ++ .finished :: w₂⟩
  | seeFoundTrue (w₁ w₂ : List WorkerPC) (c : String) (pending : List String)
      (tried : Nat) (delivered : List String) :
      PoolStep kdf data
        ⟨pending, true, tried, delivered, w₁ ++ .gotCand c :: w₂⟩
        ⟨pending, true, tried, delivered, w₁ ++ .draining :: w₂⟩
  | seeFoundFalse (w₁ w₂ : List WorkerPC) (c : String) (pending : List String)
      (tried : Nat) (delivered : List String) :
      PoolStep kdf data
        ⟨pending, false, tried, delivered, w₁ ++ .gotCand c :: w₂⟩
        ⟨pending, false, tried, delivered, w₁ ++ .preCount c :: w₂⟩
  | count (w₁ w₂ : List WorkerPC) (c : String) (pending : List String)
      (found : Bool) (tried : Nat) (delivered : List String) :
      PoolStep kdf data
        ⟨pending, found, tried, delivered, w₁ ++ .preCount c :: w₂⟩
        ⟨pending, found, (tried + 1) % 2 ^ 64, delivered,
          w₁ ++ (if verifyPassword kdf c data then .atCAS c else .idle) :: w₂⟩
  | casWin (w₁ w₂ : List WorkerPC) (c : String) (pending : List String)
      (tried : Nat) (delivered : List String) :
      PoolStep kdf data
        ⟨pending, false, tried, delivered, w₁ ++ .atCAS c :: w₂⟩
        ⟨pending, true, tried, delivered, w₁ ++ .sending c :: w₂⟩
  | casLose (w₁ w₂ : List WorkerPC) (c : String) (pending : List String)
      (tried : Nat) (delivered : List String) :
      PoolStep kdf data
        ⟨pending, true, tried, delivered, w₁ ++ .atCAS c :: w₂⟩
        ⟨pending, true, tried, delivered, w₁ ++ .finished :: w₂⟩
  | send (w₁ w₂ : List WorkerPC) (c : String) (pending : List String)
      (found : Bool) (tried : Nat) (delivered : List String) :
      PoolStep kdf data
        ⟨pending, found, tried, delivered, w₁ ++ .sending c :: w₂⟩
        ⟨pending, found, tried, delivered ++ [c], w₁ ++ .finished :: w₂⟩
  | drainStep (w₁ w₂ : List WorkerPC) (c : String) (rest : List String)
      (found : Bool) (tried : Nat) (delivered : List String) :
      PoolStep kdf data
        ⟨c :: rest, found, tried, delivered, w₁ ++ .draining :: w₂⟩
        ⟨rest, found, tried, delivered, w₁ ++ .draining :: w₂⟩
  | drainDone (w₁ w₂ : List WorkerPC)
      (found : Bool) (tried : Nat) (delivered : List String) :
      PoolStep kdf data
        ⟨[], found, tried, delivered, w₁ ++ .draining :: w₂⟩
        ⟨[], found, tried, delivered, w₁ ++ .finished :: w₂⟩

/-- Many steps. -/
def PoolReachable (kdf : KDF) (data : ScryptData) : PoolState → PoolState → Prop :=
  Relation.ReflTransGen (PoolStep kdf data)

/-- No step applies: the run is over. -/
def PoolTerminal (kdf : KDF) (data : ScryptData) (s : PoolState) : Prop :=
  ∀ s', ¬ PoolStep kdf data s s'

/-- The state in `main` just after the generator goroutine, the workers and
the shared atomics are set up: the full candidate stream ahead, flag down,
counter zero, empty result channel, `n` idle workers. -/
def initPool (mask : String) (n : Nat) : PoolState :=
  ⟨generatePasswords mask, false, 0, [], List.replicate n .idle⟩

/-- Rank of a worker control point, decreasing along every pc-only step. -/
def pcRank : WorkerPC → Nat
  | .finished => 0
  | .sending _ => 1
  | .atCAS _ => 2
  | .idle => 3
  | .draining => 3
  | .preCount _ => 4
  | .gotCand _ => 5

/-- Termination measure of the whole pool. -/
def poolMeasure (s : PoolState) : Nat :=
  6 * s.pending.length + (s.workers.map pcRank).sum

/-- Workers currently holding a candidate that has been taken from the
queue but not yet counted. -/
def heldCount (ws : List WorkerPC) : Nat :=
  ws.countP (fun pc => match pc with
    | .gotCand _ => true
    | .preCount _ => true
    | _ => false)

/-- Workers that won the CAS and have not yet sent the result. -/
def sendingCount (ws : List WorkerPC) : Nat :=
  ws.countP (fun pc => match pc with | .sending _ => true | _ => false)

/-- Some worker holds candidate `c` past the found-check or at the CAS. -/
def HeldBy (ws : List WorkerPC) (c : String) : Prop :=
  .gotCand c ∈ ws ∨ .preCount c ∈ ws ∨ .atCAS c ∈ ws

/-- Counting invariant: the true number of attempts, of which the `uint64`
counter is the image mod `2 ^ 64`, plus the candidates still queued or held
uncounted, never exceeds the total stream length. -/
def InvLe (ttl : Nat) (s : PoolState) : Prop :=
  ∃ t : Nat, s.tried = t % 2 ^ 64 ∧
    t + s.pending.length + heldCount s.workers ≤ ttl

/-- Control points a worker can occupy in a run in which no candidate of
the stream `L` ever verifies. -/
def PCNoMatch (L : List String) : WorkerPC → Prop
  | .idle => True
  | .finished => True
  | .gotCand c => c ∈ L
  | .preCount c => c ∈ L
  | _ => False

/-- Inductive invariant of a run over stream `L` none of whose candidates
verifies: the flag stays down, nothing is delivered, nobody drains or
reaches the CAS, and the attempt accounting is exact. -/
def InvNoMatch (L : List String) (s : PoolState) : Prop :=
  s.found = false ∧ s.delivered = [] ∧
  (∀ pc ∈ s.workers, PCNoMatch L pc) ∧
  (∀ c ∈ s.pending, c ∈ L) ∧
  (WorkerPC.finished ∈ s.workers → s.pending = []) ∧
  ∃ t : Nat, s.tried = t % 2 ^ 64 ∧
    t + s.pending.length + heldCount s.workers = L.length

/-- Inductive invariant for single-winner delivery over stream `L`:
the flag counts the unique CAS win, split between a worker still holding
the result and the result channel; while the flag is down nobody drains,
workers only finish on an exhausted queue, and every matching candidate of
`L` is still queued or held by some worker. -/
def InvWinner (kdf : KDF) (data : ScryptData) (L : List String) (s : PoolState) : Prop :=
  (sendingCount s.workers + s.delivered.length = if s.found then 1 else 0) ∧
  (s.found = false → WorkerPC.draining ∉ s.workers) ∧
  (s.found = false → WorkerPC.finished ∈ s.workers → s.pending = []) ∧
  (s.found = false → ∀ c, c ∈ L → verifyPassword kdf c data = true →
    c ∈ s.pending ∨ HeldBy s.workers c)

/-- A terminal report printed by `main`'s select loop: either
`PASSWORD NOT FOUND` with the counter value read at that instant, or
`PASSWORD FOUND` with the winning candidate and the counter value. -/
inductive Report where
  | notFound : Nat → Report
  | foundPw : String → Nat → Report
deriving DecidableEq

/-- Whole-program state, refining `PoolState` by splitting the candidate
stream into the generator's remaining emissions (`toEmit`; the channel is
closed exactly when it is empty) and the contents of the bounded channel
(`queue`, capacity 10000 in `main`), and adding `main`'s terminal report.
Once a report is printed `main` returns and the process exits, so no
further step is enabled. -/
structure ProgState where
  toEmit : List String
  queue : List String
  found : Bool
  tried : Nat
  delivered : List String
  workers : List WorkerPC
  report : Option Report

/-- One atomic step of the whole program: the generator emitting into the
bounded channel, the worker steps of `PoolStep` reading from it, and
`main`'s two select cases.  `main`'s `done` signal is a timer that fires
some finite but unbounded time after the generator's wait group is
satisfied: `wg.Add(1)` covers only the generator goroutine, nothing
synchronises the timer with the workers, so `reportNotFound` is enabled at
any point after the generator finishes, whatever the workers have done. -/
inductive ProgStep (kdf : KDF) (data : ScryptData) : ProgState → ProgState → Prop where
  | emit (c : String) (rest queue : List String) (found : Bool) (tried : Nat)
      (delivered : List String) (ws : List WorkerPC) :
      queue.length < 10000 →
      ProgStep kdf data
        ⟨c :: rest, queue, found, tried, delivered, ws, none⟩
        ⟨rest, queue ++ [c], found, tried, delivered, ws, none⟩
  | take (w₁ w₂ : List WorkerPC) (c : String) (toEmit rest : List String)
      (found : Bool) (tried : Nat) (delivered : List String) :
      ProgStep kdf data
        ⟨toEmit, c :: rest, found, tried, delivered, w₁ ++ .idle :: w₂, none⟩
        ⟨toEmit, rest, found, tried, delivered, w₁ ++ .gotCand c :: w₂, none⟩
  | takeClosed (w₁ w₂ : List WorkerPC)
      (found : Bool) (tried : Nat) (delivered : List String) :
      ProgStep kdf data
        ⟨[], [], found, tried, delivered, w₁ ++ .idle :: w₂, none⟩
        ⟨[], [], found, tried, delivered, w₁ ++ .finished :: w₂, none⟩
  | seeFoundTrue (w₁ w₂ : List WorkerPC) (c : String) (toEmit queue : List String)
      (tried : Nat) (delivered : List String) :
      ProgStep kdf data
        ⟨toEmit, queue, true, tried, delivered, w₁ ++ .gotCand c :: w₂, none⟩
        ⟨toEmit, queue, true, tried, delivered, w₁ ++ .draining :: w₂, none⟩
  | seeFoundFalse (w₁ w₂ : List WorkerPC) (c : String) (toEmit queue : List String)
      (tried : Nat) (delivered : List String) :
      ProgStep kdf data
        ⟨toEmit, queue, false, tried, delivered, w₁ ++ .gotCand c :: w₂, none⟩
        ⟨toEmit, queue, false, tried, delivered, w₁ ++ .preCount c :: w₂, none⟩
  | count (w₁ w₂ : List WorkerPC) (c : String) (toEmit queue : List String)
      (found : Bool) (tried : Nat) (delivered : List String) :
      ProgStep kdf data
        ⟨toEmit, queue, found, tried, delivered, w₁ ++ .preCount c :: w₂, none⟩
        ⟨toEmit, queue, found, (tried + 1) % 2 ^ 64, delivered,
          w₁ ++ (if verifyPassword kdf c data then .atCAS c else .idle) :: w₂, none⟩
  | casWin (w₁ w₂ : List WorkerPC) (c : String) (toEmit queue : List String)
      (tried : Nat) (delivered : List String) :
      ProgStep kdf data
        ⟨toEmit, queue, false, tried, delivered, w₁ ++ .atCAS c :: w₂, none⟩
        ⟨toEmit, queue, true, tried, delivered, w₁ ++ .sending c :: w₂, none⟩
  | casLose (w₁ w₂ : List WorkerPC) (c : String) (toEmit queue : List String)
      (tried : Nat) (delivered : List String) :
      ProgStep kdf data
        ⟨toEmit, queue, true, tried, delivered, w₁ ++ .atCAS c :: w₂, none⟩
        ⟨toEmit, queue, true, tried, delivered, w₁ ++ .finished :: w₂, none⟩
  | send (w₁ w₂ : List WorkerPC) (c : String) (toEmit queue : List String)
      (found : Bool) (tried : Nat) (delivered : List String) :
      ProgStep kdf data
        ⟨toEmit, queue, found, tried, delivered, w₁ ++ .sending c :: w₂, none⟩
        ⟨toEmit, queue, found, tried, delivered ++ [c], w₁ ++ .finished :: w₂, none⟩
  | drainStep (w₁ w₂ : List WorkerPC) (c : String) (toEmit rest : List String)
      (found : Bool) (tried : Nat) (delivered : List String) :
      ProgStep kdf data
        ⟨toEmit, c :: rest, found, tried, delivered, w₁ ++ .draining :: w₂, none⟩
        ⟨toEmit, rest, found, tried, delivered, w₁ ++ .draining :: w₂, none⟩
  | drainDone (w₁ w₂ : List WorkerPC)
      (found : Bool) (tried : Nat) (delivered : List String) :
      ProgStep kdf data
        ⟨[], [], found, tried, delivered, w₁ ++ .draining :: w₂, none⟩
        ⟨[], [], found, tried, delivered, w₁ ++ .finished :: w₂, none⟩
  | reportNotFound (queue : List String) (found : Bool) (tried : Nat)
      (delivered : List String) (ws : List WorkerPC) :
      ProgStep kdf data
        ⟨[], queue, found, tried, delivered, ws, none⟩
        ⟨[], queue, found, tried, delivered, ws, some (.notFound tried)⟩
  | reportFound (toEmit queue : List String) (found : Bool) (tried : Nat)
      (c : String) (rest : List String) (ws : List WorkerPC) :
      ProgStep kdf data
        ⟨toEmit, queue, found, tried, c :: rest, ws, none⟩
        ⟨toEmit, queue, found, tried, rest, ws, some (.foundPw c tried)⟩

/-- Many whole-program steps. -/
def ProgReachable (kdf : KDF) (data : ScryptData) : ProgState → ProgState → Prop :=
  Relation.ReflTransGen (ProgStep kdf data)

/-- The whole-program state in `main` just after the generator goroutine,
the workers, the channels and the shared atomics are set up. -/
def progInit (mask : String) (n : Nat) : ProgState :=
  ⟨generatePasswords mask, [], false, 0, [], List.replicate n .idle, none⟩

theorem odoEnum_length (sizes : List Nat) : (odoEnum sizes).length = sizes.prod := by
  induction sizes with
  | nil => rfl
  | cons s ss ih =>
    simp only [odoEnum, List.length_flatMap, Function.comp_def, List.length_map, ih,
      List.map_const', List.sum_replicate, List.length_range, smul_eq_mul,
      List.prod_cons]

theorem mem_odoEnum {sizes : List Nat} {v : List Nat} :
    v ∈ odoEnum sizes ↔ ValidInd sizes v := by
  induction sizes generalizing v with
  | nil =>
    cases v <;> simp [odoEnum, ValidInd]
  | cons s ss ih =>
    cases v with
    | nil =>
      simp [odoEnum, ValidInd]
    | cons i is =>
      simp only [odoEnum, ValidInd, List.mem_flatMap, List.mem_map, List.mem_range,
        List.forall₂_cons, List.cons.injEq, ih]
      constructor
      · rintro ⟨j, hj, v, hv, rfl, rfl⟩
        exact ⟨hj, hv⟩
      · rintro ⟨h1, h2⟩
        exact ⟨i, h1, is, h2, rfl, rfl⟩

theorem odoEnum_nodup (sizes : List Nat) : (odoEnum sizes).Nodup := by
  induction sizes with
  | nil => simp [odoEnum]
  | cons s ss ih =>
    rw [odoEnum, List.nodup_flatMap]
    refine ⟨fun j _ => ih.map (fun v w h => by injection h), ?_⟩
    refine (List.nodup_range s).pairwise_of_forall_ne ?_
    intro j k _ _ hjk
    simp only [Function.onFun, List.disjoint_left, List.mem_map]
    rintro v ⟨w, _, rfl⟩ ⟨w', _, h⟩
    injection h with h1 _
    exact hjk h1.symm

theorem validInd_zeros {sizes : List Nat} (h : ∀ s ∈ sizes, 0 < s) :
    ValidInd sizes (List.replicate sizes.length 0) := by
  induction sizes with
  | nil => exact List.Forall₂.nil
  | cons s ss ih =>
    exact List.Forall₂.cons (h s (by simp)) (ih (fun t ht => h t (by simp [ht])))

theorem validInd_pos {sizes ind : List Nat} (h : ValidInd sizes ind) :
    ∀ s ∈ sizes, 0 < s := by
  induction h with
  | nil => simp
  | cons hd _ ih =>
    intro t ht
    rcases List.mem_cons.mp ht with rfl | ht
    · exact Nat.lt_of_le_of_lt (Nat.zero_le _) hd
    · exact ih t ht

theorem odoInc_valid {sizes ind ind' : List Nat} (hv : ValidInd sizes ind)
    (h : odoInc sizes ind = some ind') : ValidInd sizes ind' := by
  induction ind generalizing sizes ind' with
  | nil => cases hv; simp [odoInc] at h
  | cons i is ih =>
    cases hv with
    | cons hi htail =>
      rename_i s ss
      cases is with
      | nil =>
        cases htail
        rw [odoInc] at h
        split at h
        · cases h; exact List.Forall₂.cons (by assumption) List.Forall₂.nil
        · cases h
      | cons j is' =>
        rw [odoInc] at h
        cases htail with
        | cons hj htail' =>
          rename_i t ts
          cases hinc : odoInc (t :: ts) (j :: is') with
          | some v =>
            rw [hinc] at h
            cases h
            exact List.Forall₂.cons hi (ih (List.Forall₂.cons hj htail') hinc)
          | none =>
            rw [hinc] at h
            have h2 : (if i + 1 < s then
                some ((i + 1) :: List.map (fun _ => 0) (j :: is')) else none) = some ind' := h
            have hvt : ValidInd (t :: ts) (j :: is') := List.Forall₂.cons hj htail'
            split at h2
            · cases h2
              refine List.Forall₂.cons (by assumption) ?_
              rw [List.map_const']
              have hlen : (j :: is').length = (t :: ts).length :=
                (List.Forall₂.length_eq hvt).symm
              rw [hlen]
              exact validInd_zeros (validInd_pos hvt)
            · cases h2

theorem odoEnumFrom_of_inc_none {sizes ind : List Nat} (hv : ValidInd sizes ind)
    (h : odoInc sizes ind = none) : odoEnumFrom sizes ind = [ind] := by
  induction ind generalizing sizes with
  | nil => cases hv; rfl
  | cons i is ih =>
    cases hv with
    | cons hi htail =>
      rename_i s ss
      cases is with
      | nil =>
        cases htail
        rw [odoInc] at h
        split at h
        · cases h
        · have hs : i + 1 = s := by omega
          simp [odoEnumFrom, odoEnum, hs]
      | cons j is' =>
        cases htail with
        | cons hj htail' =>
          rename_i t ts
          rw [odoInc] at h
          cases hinc : odoInc (t :: ts) (j :: is') with
          | some v => rw [hinc] at h; cases h
          | none =>
            rw [hinc] at h
            have h2 : (if i + 1 < s then
                some ((i + 1) :: List.map (fun _ => 0) (j :: is')) else none) = none := h
            split at h2
            · cases h2
            · have hs : i + 1 = s := by omega
              rw [odoEnumFrom, ih (List.Forall₂.cons hj htail') hinc]
              simp [hs]

theorem odoEnumFrom_zeros {sizes : List Nat} (h : ∀ s ∈ sizes, 0 < s) :
    odoEnumFrom sizes (List.replicate sizes.length 0) = odoEnum sizes := by
  induction sizes with
  | nil => rfl
  | cons s ss ih =>
    have hs : 0 < s := h s (by simp)
    rw [List.length_cons, List.replicate_succ, odoEnumFrom,
      ih (fun t ht => h t (by simp [ht])), odoEnum]
    obtain ⟨s', rfl⟩ : ∃ s', s = s' + 1 := ⟨s - 1, by omega⟩
    rw [List.range_succ_eq_map, List.flatMap_cons]
    simp only [Nat.add_sub_cancel, List.range'_eq_map_range, List.flatMap_map]
    congr 1
    apply List.flatMap_congr
    intro j _
    simp [Nat.add_comm, Nat.succ_eq_add_one]

theorem odoEnumFrom_of_inc_some {sizes ind ind' : List Nat} (hv : ValidInd sizes ind)
    (h : odoInc sizes ind = some ind') :
    odoEnumFrom sizes ind = ind :: odoEnumFrom sizes ind' := by
  induction ind generalizing sizes ind' with
  | nil => cases hv; cases h
  | cons i is ih =>
    cases hv with
    | cons hi htail =>
      rename_i s ss
      cases is with
      | nil =>
        cases htail
        rw [odoInc] at h
        split at h
        · cases h
          have hseq : s - (i + 1) = s - (i + 2) + 1 := by omega
          rw [odoEnumFrom, odoEnumFrom, hseq, List.range'_succ]
          simp [odoEnum, odoEnumFrom]
        · cases h
      | cons j is' =>
        cases htail with
        | cons hj htail' =>
          rename_i t ts
          have hvt : ValidInd (t :: ts) (j :: is') := List.Forall₂.cons hj htail'
          rw [odoInc] at h
          cases hinc : odoInc (t :: ts) (j :: is') with
          | some v =>
            rw [hinc] at h
            cases h
            rw [odoEnumFrom, ih hvt hinc, odoEnumFrom]
            simp
          | none =>
            rw [hinc] at h
            have h2 : (if i + 1 < s then
                some ((i + 1) :: List.map (fun _ => 0) (j :: is')) else none) = some ind' := h
            split at h2
            · cases h2
              rw [odoEnumFrom, odoEnumFrom_of_inc_none hvt hinc]
              rw [odoEnumFrom, List.map_const']
              have hlen : (j :: is').length = (t :: ts).length :=
                (List.Forall₂.length_eq hvt).symm
              rw [hlen, odoEnumFrom_zeros (validInd_pos hvt)]
              have hseq : s - (i + 1) = s - (i + 2) + 1 := by omega
              rw [hseq, List.range'_succ]
              simp
            · cases h2

theorem odoRun_eq_odoEnumFrom {sizes : List Nat} :
    ∀ fuel {ind : List Nat}, ValidInd sizes ind →
      (odoEnumFrom sizes ind).length ≤ fuel →
      odoRun fuel sizes ind = odoEnumFrom sizes ind := by
  intro fuel
  induction fuel with
  | zero =>
    intro ind hv hle
    cases hinc : odoInc sizes ind with
    | some ind' => rw [odoEnumFrom_of_inc_some hv hinc] at hle; simp at hle
    | none => rw [odoEnumFrom_of_inc_none hv hinc] at hle; simp at hle
  | succ fuel ih =>
    intro ind hv hle
    cases hinc : odoInc sizes ind with
    | some ind' =>
      rw [odoEnumFrom_of_inc_some hv hinc] at hle ⊢
      simp only [odoRun, hinc]
      rw [ih (odoInc_valid hv hinc) (by simpa using hle)]
    | none =>
      rw [odoEnumFrom_of_inc_none hv hinc]
      simp only [odoRun, hinc]

theorem odoRun_zeros {sizes : List Nat} (h : ∀ s ∈ sizes, 0 < s) :
    odoRun sizes.prod sizes (List.replicate sizes.length 0) = odoEnum sizes := by
  have hv := validInd_zeros h
  rw [odoRun_eq_odoEnumFrom sizes.prod hv ?_, odoEnumFrom_zeros h]
  rw [odoEnumFrom_zeros h, odoEnum_length]

theorem maskCharsets_sizes (mask : String) :
    (maskCharsets mask).map List.length =
      mask.toList.map (fun m => (getCharset m).length) := by
  simp only [maskCharsets, List.map_map]
  rfl

theorem searchSpaceNat_eq_sizes_prod (mask : String) :
    searchSpaceNat mask = ((maskCharsets mask).map List.length).prod := by
  rw [maskCharsets_sizes, searchSpaceNat]

/-- For a mask all of whose symbols are recognised, `generatePasswords` is the
full odometer enumeration of the index space, each vector rendered through
the charsets. -/
theorem generatePasswords_eq_enum {mask : String}
    (h : ∀ m ∈ mask.toList, getCharset m ≠ "") :
    generatePasswords mask =
      (odoEnum ((maskCharsets mask).map List.length)).map
        (emitPassword (maskCharsets mask)) := by
  have hpos : ∀ s ∈ (maskCharsets mask).map List.length, 0 < s := by
    intro s hs
    simp only [maskCharsets, List.map_map, List.mem_map, Function.comp_apply] at hs
    obtain ⟨m, hm, rfl⟩ := hs
    have := h m hm
    have hne : (getCharset m).toList ≠ [] := fun hcon => this (String.ext hcon)
    exact List.length_pos.mpr hne
  have hany : (maskCharsets mask).any (fun cs => cs.isEmpty) = false := by
    rw [List.any_eq_false]
    intro cs hcs
    simp only [List.isEmpty_iff, Bool.not_eq_true]
    intro hcon
    subst hcon
    simp only [maskCharsets, List.mem_map] at hcs
    obtain ⟨m, hm, hmap⟩ := hcs
    have hl := congrArg List.length hmap
    have := hpos 0 (by
      simp only [maskCharsets, List.map_map, List.mem_map, Function.comp_apply]
      exact ⟨m, hm, by simpa using hl⟩)
    exact absurd this (by simp)
  rw [generatePasswords, if_neg (by simp [hany])]
  rw [List.map_const', searchSpaceNat_eq_sizes_prod]
  have hlen : (maskCharsets mask).length = ((maskCharsets mask).map List.length).length := by
    simp
  rw [hlen, odoRun_zeros hpos]
theorem emitPassword_toList (charsets : List (List Char)) (ind : List Nat) :
    (emitPassword charsets ind).toList =
      (charsets.zip ind).map (fun p => p.1.getD p.2 ' ') := rfl

theorem emitPassword_injOn {charsets : List (List Char)} {v w : List Nat}
    (hnd : ∀ cs ∈ charsets, cs.Nodup)
    (hv : ValidInd (charsets.map List.length) v)
    (hw : ValidInd (charsets.map List.length) w)
    (h : emitPassword charsets v = emitPassword charsets w) : v = w := by
  have h' := congrArg String.toList h
  rw [emitPassword_toList, emitPassword_toList] at h'
  clear h
  induction charsets generalizing v w with
  | nil =>
    cases hv; cases hw; rfl
  | cons cs css ih =>
    rw [List.map_cons] at hv hw
    cases hv with
    | cons hi hvtail =>
      cases hw with
      | cons hk hwtail =>
        rename_i i is k ks
        rw [List.zip_cons_cons, List.zip_cons_cons, List.map_cons, List.map_cons] at h'
        injection h' with hhead htails
        have hhead' : cs.getD i ' ' = cs.getD k ' ' := hhead
        rw [List.getD_eq_getElem cs ' ' hi, List.getD_eq_getElem cs ' ' hk] at hhead'
        have hik : i = k :=
          (List.Nodup.getElem_inj_iff (hnd cs (by simp))).mp hhead'
        subst hik
        rw [ih (fun c hc => hnd c (by simp [hc])) hvtail hwtail htails]

theorem emitPassword_forall₂ {charsets : List (List Char)} {v : List Nat}
    (hv : ValidInd (charsets.map List.length) v) :
    List.Forall₂ (fun cs c => c ∈ cs) charsets (emitPassword charsets v).toList := by
  rw [emitPassword_toList]
  induction charsets generalizing v with
  | nil =>
    cases hv
    exact List.Forall₂.nil
  | cons cs css ih =>
    rw [List.map_cons] at hv
    cases hv with
    | cons hi hvtail =>
      rename_i i is
      rw [List.zip_cons_cons, List.map_cons]
      refine List.Forall₂.cons ?_ (ih hvtail)
      show cs.getD i ' ' ∈ cs
      rw [List.getD_eq_getElem cs ' ' hi]
      exact List.getElem_mem hi

theorem forall₂_exists_emit {charsets : List (List Char)} {l : List Char}
    (h : List.Forall₂ (fun cs c => c ∈ cs) charsets l) :
    ∃ v, ValidInd (charsets.map List.length) v ∧ emitPassword charsets v = String.mk l := by
  induction h with
  | nil => exact ⟨[], List.Forall₂.nil, rfl⟩
  | cons hc htail ih =>
    rename_i cs c css l'
    obtain ⟨v, hv, hemit⟩ := ih
    have hlt : List.indexOf c cs < cs.length := List.indexOf_lt_length.mpr hc
    refine ⟨List.indexOf c cs :: v, List.Forall₂.cons hlt hv, ?_⟩
    apply String.ext
    show ((cs, List.indexOf c cs) :: css.zip v).map (fun p => p.1.getD p.2 ' ') = c :: l'
    rw [List.map_cons]
    have h1 : cs.getD (List.indexOf c cs) ' ' = c := by
      rw [List.getD_eq_getElem cs ' ' hlt]
      exact List.getElem_indexOf hlt
    have h2 := congrArg String.toList hemit
    rw [emitPassword_toList] at h2
    rw [show ((cs, List.indexOf c cs)).1.getD ((cs, List.indexOf c cs)).2 ' '
      = c from h1, h2]
    rfl

theorem getCharset_valid_ne {m : Char} (h : m ∈ ['a', 'd', 'l', 'u', 's']) :
    getCharset m ≠ "" := by
  fin_cases h <;> decide

theorem getCharset_valid_nodup {m : Char} (h : m ∈ ['a', 'd', 'l', 'u', 's']) :
    (getCharset m).toList.Nodup := by
  fin_cases h <;> decide

/-- C1: for every non-empty mask whose symbols all lie in {a, d, l, u, s},
the candidate generator emits exactly `searchSpaceNat mask` (the product of
per-position charset sizes) candidate strings, all distinct, covering exactly
the strings whose i-th character lies in the i-th position's charset, in
odometer order: the emitted sequence equals the mixed-radix enumeration
`odoEnum` (rightmost position fastest, carrying left) rendered through the
charsets, and it is a finite list, after which the channel is closed. -/
theorem generatePasswords_complete (mask : String) (hne : mask ≠ "")
    (hsym : ∀ m ∈ mask.toList, m ∈ ['a', 'd', 'l', 'u', 's']) :
    (generatePasswords mask).length = searchSpaceNat mask ∧
    (generatePasswords mask).Nodup ∧
    (∀ s : String, s ∈ generatePasswords mask ↔
      List.Forall₂ (fun cs c => c ∈ cs) (maskCharsets mask) s.toList) ∧
    generatePasswords mask =
      (odoEnum ((maskCharsets mask).map List.length)).map
        (emitPassword (maskCharsets mask)) := by
  have hcs : ∀ m ∈ mask.toList, getCharset m ≠ "" :=
    fun m hm => getCharset_valid_ne (hsym m hm)
  have heq := generatePasswords_eq_enum hcs
  have hnd : ∀ cs ∈ maskCharsets mask, cs.Nodup := by
    intro cs hcsm
    simp only [maskCharsets, List.mem_map] at hcsm
    obtain ⟨m, hm, rfl⟩ := hcsm
    exact getCharset_valid_nodup (hsym m hm)
  refine ⟨?_, ?_, ?_, heq⟩
  · rw [heq, List.length_map, odoEnum_length, searchSpaceNat_eq_sizes_prod]
  · rw [heq]
    refine (odoEnum_nodup _).map_on ?_
    intro v hv w hw hvw
    exact emitPassword_injOn hnd (mem_odoEnum.mp hv) (mem_odoEnum.mp hw) hvw
  · intro s
    rw [heq]
    constructor
    · intro hs
      rw [List.mem_map] at hs
      obtain ⟨v, hv, rfl⟩ := hs
      exact emitPassword_forall₂ (mem_odoEnum.mp hv)
    · intro hs
      obtain ⟨v, hvv, hemit⟩ := forall₂_exists_emit hs
      rw [List.mem_map]
      refine ⟨v, mem_odoEnum.mpr hvv, ?_⟩
      rw [hemit]
      cases s
      rfl

/-- Witness for C1 at the concrete mask `dd`. -/
theorem generatePasswords_complete_witness :
    (generatePasswords "dd").length = searchSpaceNat "dd" ∧
    (generatePasswords "dd").Nodup ∧
    (∀ s : String, s ∈ generatePasswords "dd" ↔
      List.Forall₂ (fun cs c => c ∈ cs) (maskCharsets "dd") s.toList) ∧
    generatePasswords "dd" =
      (odoEnum ((maskCharsets "dd").map List.length)).map
        (emitPassword (maskCharsets "dd")) :=
  generatePasswords_complete "dd" (by decide) (by decide)

theorem getCharset_unknown {m : Char} (h : m ∉ (['a', 'd', 'l', 'u', 's'] : List Char)) :
    getCharset m = "" := by
  simp only [List.mem_cons, List.not_mem_nil, or_false, not_or] at h
  obtain ⟨h1, h2, h3, h4, h5⟩ := h
  unfold getCharset
  split
  · exact absurd rfl h1
  · exact absurd rfl h2
  · exact absurd rfl h3
  · exact absurd rfl h4
  · exact absurd rfl h5
  · rfl

theorem foldl_mul_mod (M : Nat) (f : Char → Nat) :
    ∀ (l : List Char) (a : Nat),
      l.foldl (fun t m => t * f m % M) (a % M) = a * (l.map f).prod % M := by
  intro l
  induction l with
  | nil => intro a; simp
  | cons m l ih =>
    intro a
    rw [List.foldl_cons, Nat.mod_mul_mod, ih (a * f m)]
    rw [List.map_cons, List.prod_cons, ← Nat.mul_assoc]

theorem calculateTotalCombinations_eq (mask : String) :
    calculateTotalCombinations mask = searchSpaceNat mask % 2 ^ 64 := by
  have h := foldl_mul_mod (2 ^ 64) (fun m => (getCharset m).length) mask.toList 1
  rw [calculateTotalCombinations, searchSpaceNat]
  simpa using h

theorem generatePasswords_invalid {mask : String} {m : Char}
    (hm : m ∈ mask.toList) (h : getCharset m = "") :
    generatePasswords mask = [] := by
  rw [generatePasswords, if_pos]
  rw [List.any_eq_true]
  refine ⟨(getCharset m).toList, ?_, ?_⟩
  · rw [maskCharsets, List.mem_map]
    exact ⟨m, hm, rfl⟩
  · rw [h]
    rfl

theorem searchSpaceNat_invalid {mask : String} {m : Char}
    (hm : m ∈ mask.toList) (h : getCharset m = "") :
    searchSpaceNat mask = 0 := by
  rw [searchSpaceNat]
  apply List.prod_eq_zero
  rw [List.mem_map]
  exact ⟨m, hm, by rw [h]; rfl⟩

/-- C8: the mask is validated in full before any emission: a mask with an
unrecognised symbol at any position makes `generatePasswords` close its
channel having emitted zero candidates, and `calculateTotalCombinations`
returns 0 for it, the unknown symbol's empty charset contributing a zero
factor to the product. -/
theorem invalid_symbol_mask (mask : String)
    (h : ∃ m ∈ mask.toList, m ∉ (['a', 'd', 'l', 'u', 's'] : List Char)) :
    generatePasswords mask = [] ∧ calculateTotalCombinations mask = 0 := by
  obtain ⟨m, hm, hval⟩ := h
  have hcs := getCharset_unknown hval
  refine ⟨generatePasswords_invalid hm hcs, ?_⟩
  rw [calculateTotalCombinations_eq, searchSpaceNat_invalid hm hcs, Nat.zero_mod]

/-- Witness for C8 at the mask `dxd`, whose bad symbol is in the middle. -/
theorem invalid_symbol_mask_witness :
    generatePasswords "dxd" = [] ∧ calculateTotalCombinations "dxd" = 0 :=
  invalid_symbol_mask "dxd" (by decide)

/-- C10: `calculateTotalCombinations` multiplies the charset sizes in Go
`uint64` arithmetic; when the true product is at least `2 ^ 64` the result
is the wrapped value, modulo `2 ^ 64` — no saturation and no error — and in
particular strictly smaller than the true product. -/
theorem calculateTotalCombinations_wraps (mask : String)
    (h : 2 ^ 64 ≤ searchSpaceNat mask) :
    calculateTotalCombinations mask = searchSpaceNat mask % 2 ^ 64 ∧
    calculateTotalCombinations mask < searchSpaceNat mask := by
  refine ⟨calculateTotalCombinations_eq mask, ?_⟩
  rw [calculateTotalCombinations_eq]
  calc searchSpaceNat mask % 2 ^ 64 < 2 ^ 64 := Nat.mod_lt _ (by positivity)
    _ ≤ searchSpaceNat mask := h

/-- Witness for C10 at a mask of eleven `a` symbols, whose true search
space 62^11 exceeds `2 ^ 64`. -/
theorem calculateTotalCombinations_wraps_witness :
    calculateTotalCombinations "aaaaaaaaaaa" = searchSpaceNat "aaaaaaaaaaa" % 2 ^ 64 ∧
    calculateTotalCombinations "aaaaaaaaaaa" < searchSpaceNat "aaaaaaaaaaa" :=
  calculateTotalCombinations_wraps "aaaaaaaaaaa" (by decide)

/-- C9: edge case at the generator interface: on the empty mask the
generator emits exactly one candidate, the empty string, and
`calculateTotalCombinations` returns 1 (the empty product); the CLI guard
in `main` rejects an empty mask flag regardless of the number of
positional arguments, so the search never starts on this input. -/
theorem empty_mask_edge :
    generatePasswords "" = [""] ∧ calculateTotalCombinations "" = 1 ∧
    ∀ nArgs : Nat, cliAccepts "" nArgs = false := by
  refine ⟨by decide, by decide, ?_⟩
  intro nArgs
  rw [cliAccepts]
  simp

/-- C4: `verifyPassword` returns `true` exactly when the scrypt derivation
with the record's salt, N, r, p and keyLen succeeds and its output equals
the stored digest byte-for-byte; a failing derivation (structurally invalid
parameters) yields `false` — a plain no-match — rather than an error. -/
theorem verifyPassword_spec (kdf : KDF) (password : String) (data : ScryptData) :
    (verifyPassword kdf password data = true ↔
      kdf (goBytes password) data.Salt data.N data.R data.P data.KeyLen =
        some data.Hash) ∧
    (kdf (goBytes password) data.Salt data.N data.R data.P data.KeyLen = none →
      verifyPassword kdf password data = false) := by
  constructor
  · rw [verifyPassword]
    cases hk : kdf (goBytes password) data.Salt data.N data.R data.P data.KeyLen with
    | none => simp
    | some hash => simp [beq_iff_eq]
  · intro hk
    rw [verifyPassword, hk]

/-- Witness for C4: a primitive that always fails makes every verification
report no-match. -/
theorem verifyPassword_spec_witness :
    verifyPassword (fun _ _ _ _ _ _ => none) "x" ⟨1, 1, 1, 1, [], []⟩ = false :=
  (verifyPassword_spec (fun _ _ _ _ _ _ => none) "x" ⟨1, 1, 1, 1, [], []⟩).2 rfl

theorem poolStep_found_mono {kdf : KDF} {data : ScryptData} {s s' : PoolState}
    (h : PoolStep kdf data s s') (hf : s.found = true) : s'.found = true := by
  cases h <;> simp_all

theorem sum_pcRank_append (w₁ w₂ : List WorkerPC) (pc : WorkerPC) :
    ((w₁ ++ pc :: w₂).map pcRank).sum =
      (w₁.map pcRank).sum + pcRank pc + (w₂.map pcRank).sum := by
  simp [List.map_append, List.sum_append]
  omega

theorem poolStep_measure {kdf : KDF} {data : ScryptData} {s s' : PoolState}
    (h : PoolStep kdf data s s') : poolMeasure s' < poolMeasure s := by
  cases h with
  | take w₁ w₂ c rest found tried delivered =>
    simp [poolMeasure, sum_pcRank_append, pcRank]
    omega
  | takeClosed w₁ w₂ found tried delivered =>
    simp [poolMeasure, sum_pcRank_append, pcRank]
  | seeFoundTrue w₁ w₂ c pending tried delivered =>
    simp [poolMeasure, sum_pcRank_append, pcRank]
  | seeFoundFalse w₁ w₂ c pending tried delivered =>
    simp [poolMeasure, sum_pcRank_append, pcRank]
  | count w₁ w₂ c pending found tried delivered =>
    simp only [poolMeasure, sum_pcRank_append, List.length_cons]
    have hle : pcRank (if verifyPassword kdf c data then WorkerPC.atCAS c
        else WorkerPC.idle) ≤ 3 := by
      split <;> simp [pcRank]
    simp only [pcRank] at *
    omega
  | casWin w₁ w₂ c pending tried delivered =>
    simp [poolMeasure, sum_pcRank_append, pcRank]
  | casLose w₁ w₂ c pending tried delivered =>
    simp [poolMeasure, sum_pcRank_append, pcRank]
  | send w₁ w₂ c pending found tried delivered =>
    simp [poolMeasure, sum_pcRank_append, pcRank]
  | drainStep w₁ w₂ c rest found tried delivered =>
    simp [poolMeasure, sum_pcRank_append, pcRank]
  | drainDone w₁ w₂ found tried delivered =>
    simp [poolMeasure, sum_pcRank_append, pcRank]

theorem all_finished_terminal {kdf : KDF} {data : ScryptData} {s : PoolState}
    (h : ∀ pc ∈ s.workers, pc = WorkerPC.finished) : PoolTerminal kdf data s := by
  intro s' hstep
  have hmem : ∀ (pc : WorkerPC) (w₁ w₂ : List WorkerPC), pc ∈ w₁ ++ pc :: w₂ := by
    intro pc w₁ w₂
    simp
  cases hstep <;> exact absurd (h _ (hmem _ _ _)) (by simp)

theorem terminal_all_finished {kdf : KDF} {data : ScryptData} {s : PoolState}
    (hterm : PoolTerminal kdf data s) : ∀ pc ∈ s.workers, pc = WorkerPC.finished := by
  obtain ⟨pending, found, tried, delivered, workers⟩ := s
  intro pc hpc
  by_contra hne
  obtain ⟨w₁, w₂, hw⟩ := List.append_of_mem hpc
  subst hw
  cases pc with
  | idle =>
    cases pending with
    | nil => exact hterm _ (PoolStep.takeClosed w₁ w₂ found tried delivered)
    | cons c rest => exact hterm _ (PoolStep.take w₁ w₂ c rest found tried delivered)
  | gotCand c =>
    cases found with
    | true => exact hterm _ (PoolStep.seeFoundTrue w₁ w₂ c pending tried delivered)
    | false => exact hterm _ (PoolStep.seeFoundFalse w₁ w₂ c pending tried delivered)
  | preCount c =>
    exact hterm _ (PoolStep.count w₁ w₂ c pending found tried delivered)
  | atCAS c =>
    cases found with
    | true => exact hterm _ (PoolStep.casLose w₁ w₂ c pending tried delivered)
    | false => exact hterm _ (PoolStep.casWin w₁ w₂ c pending tried delivered)
  | sending c =>
    exact hterm _ (PoolStep.send w₁ w₂ c pending found tried delivered)
  | draining =>
    cases pending with
    | nil => exact hterm _ (PoolStep.drainDone w₁ w₂ found tried delivered)
    | cons c rest => exact hterm _ (PoolStep.drainStep w₁ w₂ c rest found tried delivered)
  | finished => exact hne rfl

theorem heldCount_append (w₁ w₂ : List WorkerPC) (pc : WorkerPC) :
    heldCount (w₁ ++ pc :: w₂) = heldCount w₁ + heldCount [pc] + heldCount w₂ := by
  simp [heldCount, List.countP_append, List.countP_cons]
  omega

theorem sendingCount_append (w₁ w₂ : List WorkerPC) (pc : WorkerPC) :
    sendingCount (w₁ ++ pc :: w₂) =
      sendingCount w₁ + sendingCount [pc] + sendingCount w₂ := by
  simp [sendingCount, List.countP_append, List.countP_cons]
  omega

theorem invLe_step {kdf : KDF} {data : ScryptData} {ttl : Nat} {s s' : PoolState}
    (h : PoolStep kdf data s s') (hi : InvLe ttl s) : InvLe ttl s' := by
  obtain ⟨t, ht, hle⟩ := hi
  cases h with
  | take w₁ w₂ c rest found tried delivered =>
    refine ⟨t, ht, ?_⟩
    simp only [heldCount_append, List.length_cons] at hle ⊢
    simp only [heldCount, List.countP_cons, List.countP_nil] at hle ⊢
    simp at hle ⊢
    omega
  | takeClosed w₁ w₂ found tried delivered =>
    refine ⟨t, ht, ?_⟩
    simp only [heldCount_append] at hle ⊢
    simp [heldCount] at hle ⊢
    omega
  | seeFoundTrue w₁ w₂ c pending tried delivered =>
    refine ⟨t, ht, ?_⟩
    simp only [heldCount_append] at hle ⊢
    simp [heldCount] at hle ⊢
    omega
  | seeFoundFalse w₁ w₂ c pending tried delivered =>
    refine ⟨t, ht, ?_⟩
    simp only [heldCount_append] at hle ⊢
    simp [heldCount] at hle ⊢
    omega
  | count w₁ w₂ c pending found tried delivered =>
    refine ⟨t + 1, ?_, ?_⟩
    · show (tried + 1) % 2 ^ 64 = (t + 1) % 2 ^ 64
      have ht' : tried = t % 2 ^ 64 := ht
      rw [ht', Nat.mod_add_mod]
    · simp only [heldCount_append] at hle ⊢
      have hif : heldCount [if verifyPassword kdf c data then WorkerPC.atCAS c
          else WorkerPC.idle] = 0 := by
        split <;> simp [heldCount]
      rw [hif]
      simp [heldCount] at hle ⊢
      omega
  | casWin w₁ w₂ c pending tried delivered =>
    refine ⟨t, ht, ?_⟩
    simp only [heldCount_append] at hle ⊢
    simp [heldCount] at hle ⊢
    omega
  | casLose w₁ w₂ c pending tried delivered =>
    refine ⟨t, ht, ?_⟩
    simp only [heldCount_append] at hle ⊢
    simp [heldCount] at hle ⊢
    omega
  | send w₁ w₂ c pending found tried delivered =>
    refine ⟨t, ht, ?_⟩
    simp only [heldCount_append] at hle ⊢
    simp [heldCount] at hle ⊢
    omega
  | drainStep w₁ w₂ c rest found tried delivered =>
    refine ⟨t, ht, ?_⟩
    simp only [heldCount_append, List.length_cons] at hle ⊢
    omega
  | drainDone w₁ w₂ found tried delivered =>
    refine ⟨t, ht, ?_⟩
    simp only [heldCount_append] at hle ⊢
    simp [heldCount] at hle ⊢
    omega

theorem mem_mid_elim {pc x y : WorkerPC} {w₁ w₂ : List WorkerPC}
    (h : pc ∈ w₁ ++ x :: w₂) : pc = x ∨ pc ∈ w₁ ++ y :: w₂ := by
  rcases List.mem_append.mp h with h1 | h1
  · exact Or.inr (List.mem_append.mpr (Or.inl h1))
  · rcases List.mem_cons.mp h1 with h2 | h2
    · exact Or.inl h2
    · exact Or.inr (by simp [h2])

theorem invNoMatch_step {kdf : KDF} {data : ScryptData} {L : List String}
    {s s' : PoolState}
    (hnm : ∀ c ∈ L, verifyPassword kdf c data = false)
    (h : PoolStep kdf data s s') (hi : InvNoMatch L s) : InvNoMatch L s' := by
  obtain ⟨hf, hd, hpc, hpend, hfin, t, ht, heq⟩ := hi
  cases h with
  | take w₁ w₂ c rest found tried delivered =>
    have hcL : c ∈ L := hpend c (by simp)
    refine ⟨hf, hd, ?_, ?_, ?_, t, ht, ?_⟩
    · intro pc hp
      rcases mem_mid_elim (y := WorkerPC.idle) hp with rfl | h1
      · exact hcL
      · exact hpc pc h1
    · intro c' hc'
      exact hpend c' (by simp [hc'])
    · intro hfin'
      rcases mem_mid_elim (y := WorkerPC.idle) hfin' with h1 | h1
      · cases h1
      · exact absurd (hfin h1) (by simp)
    · simp only [heldCount_append, List.length_cons] at heq ⊢
      simp [heldCount] at heq ⊢
      omega
  | takeClosed w₁ w₂ found tried delivered =>
    refine ⟨hf, hd, ?_, hpend, ?_, t, ht, ?_⟩
    · intro pc hp
      rcases mem_mid_elim (y := WorkerPC.idle) hp with rfl | h1
      · trivial
      · exact hpc pc h1
    · intro _
      rfl
    · simp only [heldCount_append] at heq ⊢
      simp [heldCount] at heq ⊢
      omega
  | seeFoundTrue w₁ w₂ c pending tried delivered =>
    exact absurd hf (by simp)
  | seeFoundFalse w₁ w₂ c pending tried delivered =>
    have hcL : c ∈ L := hpc (WorkerPC.gotCand c) (by simp)
    refine ⟨hf, hd, ?_, hpend, ?_, t, ht, ?_⟩
    · intro pc hp
      rcases mem_mid_elim (y := WorkerPC.gotCand c) hp with rfl | h1
      · exact hcL
      · exact hpc pc h1
    · intro hfin'
      rcases mem_mid_elim (y := WorkerPC.gotCand c) hfin' with h1 | h1
      · cases h1
      · exact hfin h1
    · simp only [heldCount_append] at heq ⊢
      simp [heldCount] at heq ⊢
      omega
  | count w₁ w₂ c pending found tried delivered =>
    have hcL : c ∈ L := hpc (WorkerPC.preCount c) (by simp)
    have hv : verifyPassword kdf c data = false := hnm c hcL
    rw [if_neg (by simp [hv])]
    refine ⟨hf, hd, ?_, hpend, ?_, t + 1, ?_, ?_⟩
    · intro pc hp
      rcases mem_mid_elim (y := WorkerPC.preCount c) hp with rfl | h1
      · trivial
      · exact hpc pc h1
    · intro hfin'
      rcases mem_mid_elim (y := WorkerPC.preCount c) hfin' with h1 | h1
      · cases h1
      · exact hfin h1
    · show (tried + 1) % 2 ^ 64 = (t + 1) % 2 ^ 64
      have ht' : tried = t % 2 ^ 64 := ht
      rw [ht', Nat.mod_add_mod]
    · simp only [heldCount_append] at heq ⊢
      simp [heldCount] at heq ⊢
      omega
  | casWin w₁ w₂ c pending tried delivered =>
    exact absurd (hpc (WorkerPC.atCAS c) (by simp)) (by simp [PCNoMatch])
  | casLose w₁ w₂ c pending tried delivered =>
    exact absurd hf (by simp)
  | send w₁ w₂ c pending found tried delivered =>
    exact absurd (hpc (WorkerPC.sending c) (by simp)) (by simp [PCNoMatch])
  | drainStep w₁ w₂ c rest found tried delivered =>
    exact absurd (hpc WorkerPC.draining (by simp)) (by simp [PCNoMatch])
  | drainDone w₁ w₂ found tried delivered =>
    exact absurd (hpc WorkerPC.draining (by simp)) (by simp [PCNoMatch])

theorem heldBy_mid {c : String} {x y : WorkerPC} {w₁ w₂ : List WorkerPC}
    (h : HeldBy (w₁ ++ y :: w₂) c) :
    WorkerPC.gotCand c = y ∨ WorkerPC.preCount c = y ∨ WorkerPC.atCAS c = y ∨
      HeldBy (w₁ ++ x :: w₂) c := by
  rcases h with h | h | h
  · rcases mem_mid_elim (y := x) h with h1 | h1
    · exact Or.inl h1
    · exact Or.inr (Or.inr (Or.inr (Or.inl h1)))
  · rcases mem_mid_elim (y := x) h with h1 | h1
    · exact Or.inr (Or.inl h1)
    · exact Or.inr (Or.inr (Or.inr (Or.inr (Or.inl h1))))
  · rcases mem_mid_elim (y := x) h with h1 | h1
    · exact Or.inr (Or.inr (Or.inl h1))
    · exact Or.inr (Or.inr (Or.inr (Or.inr (Or.inr h1))))

theorem sendingCount_eq_mid {x y : WorkerPC} (w₁ w₂ : List WorkerPC)
    (hx : sendingCount [x] = sendingCount [y]) :
    sendingCount (w₁ ++ x :: w₂) = sendingCount (w₁ ++ y :: w₂) := by
  rw [sendingCount_append, sendingCount_append, hx]

theorem invWinner_step {kdf : KDF} {data : ScryptData} {L : List String}
    {s s' : PoolState}
    (h : PoolStep kdf data s s') (hi : InvWinner kdf data L s) :
    InvWinner kdf data L s' := by
  obtain ⟨hcnt, hnd, hfin, hmatch⟩ := hi
  cases h with
  | take w₁ w₂ c rest found tried delivered =>
    dsimp only at hcnt hnd hfin hmatch
    dsimp only [InvWinner]
    refine ⟨?_, ?_, ?_, ?_⟩
    · rw [sendingCount_eq_mid (x := WorkerPC.gotCand c) (y := WorkerPC.idle) w₁ w₂ rfl]
      exact hcnt
    · intro hf hdr
      rcases mem_mid_elim (y := WorkerPC.idle) hdr with h1 | h1
      · cases h1
      · exact absurd h1 (hnd hf)
    · intro hf hfin'
      rcases mem_mid_elim (y := WorkerPC.idle) hfin' with h1 | h1
      · cases h1
      · exact absurd (hfin hf h1) (by simp)
    · intro hf c' hc' hv
      rcases hmatch hf c' hc' hv with h1 | h1
      · rcases List.mem_cons.mp h1 with rfl | h2
        · exact Or.inr (Or.inl (by simp))
        · exact Or.inl h2
      · rcases heldBy_mid (x := WorkerPC.gotCand c) h1 with h2 | h2 | h2 | h2
        · cases h2
        · cases h2
        · cases h2
        · exact Or.inr h2
  | takeClosed w₁ w₂ found tried delivered =>
    dsimp only at hcnt hnd hfin hmatch
    dsimp only [InvWinner]
    refine ⟨?_, ?_, ?_, ?_⟩
    · rw [sendingCount_eq_mid (x := WorkerPC.finished) (y := WorkerPC.idle) w₁ w₂ rfl]
      exact hcnt
    · intro hf hdr
      rcases mem_mid_elim (y := WorkerPC.idle) hdr with h1 | h1
      · cases h1
      · exact absurd h1 (hnd hf)
    · intro _ _
      rfl
    · intro hf c' hc' hv
      rcases hmatch hf c' hc' hv with h1 | h1
      · exact Or.inl h1
      · rcases heldBy_mid (x := WorkerPC.finished) h1 with h2 | h2 | h2 | h2
        · cases h2
        · cases h2
        · cases h2
        · exact Or.inr h2
  | seeFoundTrue w₁ w₂ c pending tried delivered =>
    dsimp only at hcnt hnd hfin hmatch
    dsimp only [InvWinner]
    refine ⟨?_, by simp, by simp, by simp⟩
    rw [sendingCount_eq_mid (x := WorkerPC.draining) (y := WorkerPC.gotCand c) w₁ w₂ rfl]
    exact hcnt
  | seeFoundFalse w₁ w₂ c pending tried delivered =>
    dsimp only at hcnt hnd hfin hmatch
    dsimp only [InvWinner]
    refine ⟨?_, ?_, ?_, ?_⟩
    · rw [sendingCount_eq_mid (x := WorkerPC.preCount c) (y := WorkerPC.gotCand c) w₁ w₂ rfl]
      exact hcnt
    · intro hf hdr
      rcases mem_mid_elim (y := WorkerPC.gotCand c) hdr with h1 | h1
      · cases h1
      · exact absurd h1 (hnd hf)
    · intro hf hfin'
      rcases mem_mid_elim (y := WorkerPC.gotCand c) hfin' with h1 | h1
      · cases h1
      · exact hfin hf h1
    · intro hf c' hc' hv
      rcases hmatch hf c' hc' hv with h1 | h1
      · exact Or.inl h1
      · rcases heldBy_mid (x := WorkerPC.preCount c) h1 with h2 | h2 | h2 | h2
        · cases h2
          exact Or.inr (Or.inr (Or.inl (by simp)))
        · cases h2
        · cases h2
        · exact Or.inr h2
  | count w₁ w₂ c pending found tried delivered =>
    dsimp only at hcnt hnd hfin hmatch
    dsimp only [InvWinner]
    refine ⟨?_, ?_, ?_, ?_⟩
    · rw [sendingCount_eq_mid
          (x := if verifyPassword kdf c data then WorkerPC.atCAS c else WorkerPC.idle)
          (y := WorkerPC.preCount c) w₁ w₂ (by split <;> rfl)]
      exact hcnt
    · intro hf hdr
      rcases mem_mid_elim (y := WorkerPC.preCount c) hdr with h1 | h1
      · revert h1
        split <;> intro h1 <;> cases h1
      · exact absurd h1 (hnd hf)
    · intro hf hfin'
      rcases mem_mid_elim (y := WorkerPC.preCount c) hfin' with h1 | h1
      · revert h1
        split <;> intro h1 <;> cases h1
      · exact hfin hf h1
    · intro hf c' hc' hv
      rcases hmatch hf c' hc' hv with h1 | h1
      · exact Or.inl h1
      · rcases heldBy_mid
          (x := if verifyPassword kdf c data then WorkerPC.atCAS c else WorkerPC.idle)
          h1 with h2 | h2 | h2 | h2
        · cases h2
        · cases h2
          rw [if_pos hv]
          exact Or.inr (Or.inr (Or.inr (by simp)))
        · cases h2
        · exact Or.inr h2
  | casWin w₁ w₂ c pending tried delivered =>
    dsimp only at hcnt hnd hfin hmatch
    dsimp only [InvWinner]
    refine ⟨?_, by simp, by simp, by simp⟩
    rw [sendingCount_append] at hcnt ⊢
    have h1 : sendingCount [WorkerPC.atCAS c] = 0 := rfl
    have h2 : sendingCount [WorkerPC.sending c] = 1 := rfl
    rw [h1] at hcnt
    rw [h2]
    simp only [Bool.false_eq_true, if_false, if_true] at hcnt ⊢
    omega
  | casLose w₁ w₂ c pending tried delivered =>
    dsimp only at hcnt hnd hfin hmatch
    dsimp only [InvWinner]
    refine ⟨?_, by simp, by simp, by simp⟩
    rw [sendingCount_eq_mid (x := WorkerPC.finished) (y := WorkerPC.atCAS c) w₁ w₂ rfl]
    exact hcnt
  | send w₁ w₂ c pending found tried delivered =>
    dsimp only at hcnt hnd hfin hmatch
    dsimp only [InvWinner]
    have hft : found = true := by
      cases found with
      | true => rfl
      | false =>
        exfalso
        rw [sendingCount_append] at hcnt
        have h1 : sendingCount [WorkerPC.sending c] = 1 := rfl
        rw [h1] at hcnt
        simp only [Bool.false_eq_true, if_false] at hcnt
        omega
    subst hft
    refine ⟨?_, by simp, by simp, by simp⟩
    rw [sendingCount_append] at hcnt ⊢
    have h1 : sendingCount [WorkerPC.sending c] = 1 := rfl
    have h2 : sendingCount [WorkerPC.finished] = 0 := rfl
    rw [h1] at hcnt
    rw [h2, List.length_append]
    simp only [if_true, List.length_cons, List.length_nil] at hcnt ⊢
    omega
  | drainStep w₁ w₂ c rest found tried delivered =>
    dsimp only at hcnt hnd hfin hmatch
    dsimp only [InvWinner]
    have hft : found = true := by
      cases found with
      | true => rfl
      | false => exact absurd (by simp : WorkerPC.draining ∈ _) (hnd rfl)
    subst hft
    exact ⟨hcnt, by simp, by simp, by simp⟩
  | drainDone w₁ w₂ found tried delivered =>
    dsimp only at hcnt hnd hfin hmatch
    dsimp only [InvWinner]
    have hft : found = true := by
      cases found with
      | true => rfl
      | false => exact absurd (by simp : WorkerPC.draining ∈ _) (hnd rfl)
    subst hft
    refine ⟨?_, by simp, by simp, by simp⟩
    rw [sendingCount_eq_mid (x := WorkerPC.finished) (y := WorkerPC.draining) w₁ w₂ rfl]
    exact hcnt

theorem invLe_reach {kdf : KDF} {data : ScryptData} {ttl : Nat} {s s' : PoolState}
    (hi : InvLe ttl s) (hr : PoolReachable kdf data s s') : InvLe ttl s' := by
  induction hr with
  | refl => exact hi
  | tail _ hstep ih => exact invLe_step hstep ih

theorem invNoMatch_reach {kdf : KDF} {data : ScryptData} {L : List String}
    {s s' : PoolState} (hnm : ∀ c ∈ L, verifyPassword kdf c data = false)
    (hi : InvNoMatch L s) (hr : PoolReachable kdf data s s') : InvNoMatch L s' := by
  induction hr with
  | refl => exact hi
  | tail _ hstep ih => exact invNoMatch_step hnm hstep ih

theorem invWinner_reach {kdf : KDF} {data : ScryptData} {L : List String}
    {s s' : PoolState} (hi : InvWinner kdf data L s)
    (hr : PoolReachable kdf data s s') : InvWinner kdf data L s' := by
  induction hr with
  | refl => exact hi
  | tail _ hstep ih => exact invWinner_step hstep ih

theorem heldCount_replicate_idle (n : Nat) :
    heldCount (List.replicate n WorkerPC.idle) = 0 := by
  rw [heldCount, List.countP_replicate]
  simp

theorem sendingCount_replicate_idle (n : Nat) :
    sendingCount (List.replicate n WorkerPC.idle) = 0 := by
  rw [sendingCount, List.countP_replicate]
  simp

theorem invLe_init (mask : String) (n : Nat) :
    InvLe (generatePasswords mask).length (initPool mask n) := by
  refine ⟨0, rfl, ?_⟩
  simp [initPool, heldCount_replicate_idle]

theorem invNoMatch_init (mask : String) (n : Nat) :
    InvNoMatch (generatePasswords mask) (initPool mask n) := by
  refine ⟨rfl, rfl, ?_, fun c hc => hc, ?_, 0, rfl, ?_⟩
  · intro pc hpc
    rw [List.eq_of_mem_replicate hpc]
    trivial
  · intro hmem
    have := List.eq_of_mem_replicate hmem
    cases this
  · simp [initPool, heldCount_replicate_idle]

theorem invWinner_init (kdf : KDF) (data : ScryptData) (mask : String) (n : Nat) :
    InvWinner kdf data (generatePasswords mask) (initPool mask n) := by
  refine ⟨?_, ?_, ?_, ?_⟩
  · simp [initPool, sendingCount_replicate_idle]
  · intro _ hmem
    have := List.eq_of_mem_replicate hmem
    cases this
  · intro _ hmem
    have := List.eq_of_mem_replicate hmem
    cases this
  · intro _ c hc _
    exact Or.inl hc

theorem poolStep_workers_length {kdf : KDF} {data : ScryptData} {s s' : PoolState}
    (h : PoolStep kdf data s s') : s'.workers.length = s.workers.length := by
  cases h <;> simp

theorem poolReachable_workers_length {kdf : KDF} {data : ScryptData} {s s' : PoolState}
    (hr : PoolReachable kdf data s s') : s'.workers.length = s.workers.length := by
  induction hr with
  | refl => rfl
  | tail _ hstep ih => rw [poolStep_workers_length hstep, ih]

theorem heldCount_eq_zero_of_all_finished {ws : List WorkerPC}
    (h : ∀ pc ∈ ws, pc = WorkerPC.finished) : heldCount ws = 0 := by
  rw [heldCount, List.countP_eq_zero]
  intro pc hpc
  rw [h pc hpc]
  simp

theorem sendingCount_eq_zero_of_all_finished {ws : List WorkerPC}
    (h : ∀ pc ∈ ws, pc = WorkerPC.finished) : sendingCount ws = 0 := by
  rw [sendingCount, List.countP_eq_zero]
  intro pc hpc
  rw [h pc hpc]
  simp

theorem odoRun_length_le (fuel : Nat) (sizes ind : List Nat) :
    (odoRun fuel sizes ind).length ≤ fuel := by
  induction fuel generalizing ind with
  | zero => simp [odoRun]
  | succ fuel ih =>
    rw [odoRun]
    cases odoInc sizes ind with
    | some ind' => simpa using ih ind'
    | none => simp

theorem generatePasswords_length_le (mask : String) :
    (generatePasswords mask).length ≤ searchSpaceNat mask := by
  rw [generatePasswords]
  split
  · simp
  · rw [List.length_map]
    exact odoRun_length_le _ _ _

theorem generatePasswords_length_valid {mask : String}
    (hsym : ∀ m ∈ mask.toList, m ∈ ['a', 'd', 'l', 'u', 's']) :
    (generatePasswords mask).length = searchSpaceNat mask := by
  rw [generatePasswords_eq_enum (fun m hm => getCharset_valid_ne (hsym m hm)),
    List.length_map, odoEnum_length, searchSpaceNat_eq_sizes_prod]

/-- The worker pool by itself, left to run until no step is enabled, does
exhaust the space when nothing matches: every terminal pool state has an
empty result channel and counter exactly `calculateTotalCombinations`, each
candidate counted and verified once, none merely drained, and every run of
the pool terminates.  `main`, however, does not wait for the pool: see the
premature-report theorem below for the resulting defect (C2). -/
theorem noMatch_run (mask : String) (n : Nat) (kdf : KDF) (data : ScryptData)
    (hn : 0 < n)
    (hsym : ∀ m ∈ mask.toList, m ∈ ['a', 'd', 'l', 'u', 's'])
    (hnm : ∀ c ∈ generatePasswords mask, verifyPassword kdf c data = false) :
    (∀ s, PoolReachable kdf data (initPool mask n) s → PoolTerminal kdf data s →
      s.delivered = [] ∧ s.tried = calculateTotalCombinations mask) ∧
    ∀ s s', PoolStep kdf data s s' → poolMeasure s' < poolMeasure s := by
  refine ⟨?_, fun s s' h => poolStep_measure h⟩
  intro s hr hterm
  obtain ⟨hf, hd, hpc, hpend, hfin, t, ht, heq⟩ :=
    invNoMatch_reach hnm (invNoMatch_init mask n) hr
  have hall := terminal_all_finished hterm
  have hlen : s.workers.length = n := by
    rw [poolReachable_workers_length hr]
    simp [initPool]
  have hne : s.workers ≠ [] := by
    intro hcon
    rw [hcon] at hlen
    simp at hlen
    omega
  obtain ⟨pc, hpcmem⟩ := List.exists_mem_of_ne_nil s.workers hne
  have hfinmem : WorkerPC.finished ∈ s.workers := by
    rw [← hall pc hpcmem]
    exact hpcmem
  have hpe : s.pending = [] := hfin hfinmem
  have hheld : heldCount s.workers = 0 := heldCount_eq_zero_of_all_finished hall
  rw [hpe, hheld] at heq
  simp only [List.length_nil, Nat.add_zero] at heq
  refine ⟨hd, ?_⟩
  rw [ht, heq, calculateTotalCombinations_eq, generatePasswords_length_valid hsym]

/-- C3: under every interleaving, the `found` flag never goes back from
`true` to `false`, at most one candidate is ever delivered on the result
channel, and when some candidate of the space verifies, every terminal
state has exactly one delivered result. -/
theorem single_winner (mask : String) (n : Nat) (kdf : KDF) (data : ScryptData)
    (hn : 0 < n) :
    (∀ s s', PoolStep kdf data s s' → s.found = true → s'.found = true) ∧
    (∀ s, PoolReachable kdf data (initPool mask n) s → s.delivered.length ≤ 1) ∧
    ((∃ c ∈ generatePasswords mask, verifyPassword kdf c data = true) →
      ∀ s, PoolReachable kdf data (initPool mask n) s → PoolTerminal kdf data s →
        s.delivered.length = 1) := by
  refine ⟨fun s s' h => poolStep_found_mono h, ?_, ?_⟩
  · intro s hr
    obtain ⟨hcnt, _, _, _⟩ := invWinner_reach (invWinner_init kdf data mask n) hr
    by_cases hf : s.found = true
    · rw [hf, if_pos rfl] at hcnt
      omega
    · rw [Bool.not_eq_true] at hf
      rw [hf, if_neg (by simp)] at hcnt
      omega
  · rintro ⟨c, hcL, hcv⟩ s hr hterm
    obtain ⟨hcnt, _, hfin, hmatch⟩ := invWinner_reach (invWinner_init kdf data mask n) hr
    have hall := terminal_all_finished hterm
    have hsend : sendingCount s.workers = 0 := sendingCount_eq_zero_of_all_finished hall
    by_cases hf : s.found = true
    · rw [hf] at hcnt
      rw [hsend] at hcnt
      simpa using hcnt
    · exfalso
      rw [Bool.not_eq_true] at hf
      have hlen : s.workers.length = n := by
        rw [poolReachable_workers_length hr]
        simp [initPool]
      have hne : s.workers ≠ [] := by
        intro hcon
        rw [hcon] at hlen
        simp at hlen
        omega
      obtain ⟨pc, hpcmem⟩ := List.exists_mem_of_ne_nil s.workers hne
      have hfinmem : WorkerPC.finished ∈ s.workers := by
        rw [← hall pc hpcmem]
        exact hpcmem
      have hpe : s.pending = [] := hfin hf hfinmem
      rcases hmatch hf c hcL hcv with h1 | h1
      · rw [hpe] at h1
        cases h1
      · rcases h1 with h1 | h1 | h1 <;> exact absurd (hall _ h1) (by simp)

/-- Witness for C3 at one worker over mask `d` with an always-failing
primitive. -/
theorem single_winner_witness :
    (∀ s s', PoolStep (fun _ _ _ _ _ _ => none) ⟨1, 1, 1, 1, [], []⟩ s s' →
      s.found = true → s'.found = true) ∧
    (∀ s, PoolReachable (fun _ _ _ _ _ _ => none) ⟨1, 1, 1, 1, [], []⟩
        (initPool "d" 1) s →
      s.delivered.length ≤ 1) ∧
    ((∃ c ∈ generatePasswords "d",
        verifyPassword (fun _ _ _ _ _ _ => none) c ⟨1, 1, 1, 1, [], []⟩ = true) →
      ∀ s, PoolReachable (fun _ _ _ _ _ _ => none) ⟨1, 1, 1, 1, [], []⟩
          (initPool "d" 1) s →
        PoolTerminal (fun _ _ _ _ _ _ => none) ⟨1, 1, 1, 1, [], []⟩ s →
        s.delivered.length = 1) :=
  single_winner "d" 1 (fun _ _ _ _ _ _ => none) ⟨1, 1, 1, 1, [], []⟩ (by decide)

theorem consume_reach {kdf : KDF} {data : ScryptData}
    (hvf : ∀ c, verifyPassword kdf c data = false) (L : List String) :
    ∀ k, k ≤ L.length →
      PoolReachable kdf data ⟨L, false, 0, [], [WorkerPC.idle]⟩
        ⟨L.drop k, false, k % 2 ^ 64, [], [WorkerPC.idle]⟩ := by
  intro k
  induction k with
  | zero =>
    intro _
    exact Relation.ReflTransGen.refl
  | succ k ih =>
    intro hk
    have hk' : k < L.length := hk
    have hdrop : L.drop k = L[k] :: L.drop (k + 1) := List.drop_eq_getElem_cons hk'
    refine Relation.ReflTransGen.trans (ih (by omega)) ?_
    rw [hdrop]
    have s1 : PoolStep kdf data
        ⟨L[k] :: L.drop (k + 1), false, k % 2 ^ 64, [], [WorkerPC.idle]⟩
        ⟨L.drop (k + 1), false, k % 2 ^ 64, [], [WorkerPC.gotCand L[k]]⟩ :=
      PoolStep.take [] [] L[k] (L.drop (k + 1)) false (k % 2 ^ 64) []
    have s2 : PoolStep kdf data
        ⟨L.drop (k + 1), false, k % 2 ^ 64, [], [WorkerPC.gotCand L[k]]⟩
        ⟨L.drop (k + 1), false, k % 2 ^ 64, [], [WorkerPC.preCount L[k]]⟩ :=
      PoolStep.seeFoundFalse [] [] L[k] (L.drop (k + 1)) (k % 2 ^ 64) []
    have s3 : PoolStep kdf data
        ⟨L.drop (k + 1), false, k % 2 ^ 64, [], [WorkerPC.preCount L[k]]⟩
        ⟨L.drop (k + 1), false, (k + 1) % 2 ^ 64, [], [WorkerPC.idle]⟩ := by
      have h : PoolStep kdf data
          ⟨L.drop (k + 1), false, k % 2 ^ 64, [], [WorkerPC.preCount L[k]]⟩
          ⟨L.drop (k + 1), false, (k % 2 ^ 64 + 1) % 2 ^ 64, [],
            [if verifyPassword kdf L[k] data then WorkerPC.atCAS L[k]
              else WorkerPC.idle]⟩ :=
        PoolStep.count [] [] L[k] (L.drop (k + 1)) false (k % 2 ^ 64) []
      rw [hvf L[k]] at h
      simp only [Bool.false_eq_true, if_false] at h
      rw [Nat.mod_add_mod] at h
      exact h
    exact Relation.ReflTransGen.head s1 (Relation.ReflTransGen.head s2
      (Relation.ReflTransGen.single s3))

/-- Counterexample to C7: the attempt counter is a Go `uint64`.  On the
eleven-symbol mask `aaaaaaaaaaa`, whose true search space 62^11 exceeds
`2 ^ 64`, the run can reach a state whose counter (`2 ^ 64 - 1`) strictly
exceeds `SearchSpace` as computed by `calculateTotalCombinations`, because
the latter is the product wrapped modulo `2 ^ 64`. -/
theorem tried_exceeds_searchSpace :
    PoolReachable (fun _ _ _ _ _ _ => none) ⟨1, 1, 1, 1, [], []⟩
      (initPool "aaaaaaaaaaa" 1)
      ⟨(generatePasswords "aaaaaaaaaaa").drop (2 ^ 64 - 1), false, 2 ^ 64 - 1, [],
        [WorkerPC.idle]⟩ ∧
    calculateTotalCombinations "aaaaaaaaaaa" < 2 ^ 64 - 1 := by
  constructor
  · have hvf : ∀ c, verifyPassword (fun _ _ _ _ _ _ => none) c
        ⟨1, 1, 1, 1, [], []⟩ = false := fun _ => rfl
    have hlen : (generatePasswords "aaaaaaaaaaa").length =
        searchSpaceNat "aaaaaaaaaaa" := generatePasswords_length_valid (by decide)
    have hle : 2 ^ 64 - 1 ≤ (generatePasswords "aaaaaaaaaaa").length := by
      rw [hlen]
      decide
    have h := consume_reach hvf (generatePasswords "aaaaaaaaaaa") (2 ^ 64 - 1) hle
    rw [Nat.mod_eq_of_lt (by omega)] at h
    exact h
  · decide

/-- C7 amended: the `uint64` attempt counter is the true attempt count
reduced modulo `2 ^ 64`, and the true count never exceeds the unwrapped
search-space product; consequently, whenever the product fits in 64 bits —
so that `calculateTotalCombinations` equals it — the counter never exceeds
`calculateTotalCombinations` in any reachable state. -/
theorem tried_le_searchSpace (mask : String) (n : Nat) (kdf : KDF)
    (data : ScryptData) :
    (∀ s, PoolReachable kdf data (initPool mask n) s →
      ∃ t : Nat, s.tried = t % 2 ^ 64 ∧ t ≤ searchSpaceNat mask) ∧
    (searchSpaceNat mask < 2 ^ 64 →
      ∀ s, PoolReachable kdf data (initPool mask n) s →
        s.tried ≤ calculateTotalCombinations mask) := by
  have hkey : ∀ s, PoolReachable kdf data (initPool mask n) s →
      ∃ t : Nat, s.tried = t % 2 ^ 64 ∧ t ≤ searchSpaceNat mask := by
    intro s hr
    obtain ⟨t, ht, hle⟩ := invLe_reach (invLe_init mask n) hr
    exact ⟨t, ht, le_trans (by omega) (generatePasswords_length_le mask)⟩
  refine ⟨hkey, ?_⟩
  intro hfit s hr
  obtain ⟨t, ht, hle⟩ := hkey s hr
  rw [ht, Nat.mod_eq_of_lt (by omega), calculateTotalCombinations_eq,
    Nat.mod_eq_of_lt hfit]
  exact hle

/-- Witness for the amended C7 at mask `d` with one worker. -/
theorem tried_le_searchSpace_witness :
    (∀ s, PoolReachable (fun _ _ _ _ _ _ => none) ⟨1, 1, 1, 1, [], []⟩
        (initPool "d" 1) s →
      ∃ t : Nat, s.tried = t % 2 ^ 64 ∧ t ≤ searchSpaceNat "d") ∧
    (searchSpaceNat "d" < 2 ^ 64 →
      ∀ s, PoolReachable (fun _ _ _ _ _ _ => none) ⟨1, 1, 1, 1, [], []⟩
          (initPool "d" 1) s →
        s.tried ≤ calculateTotalCombinations "d") :=
  tried_le_searchSpace "d" 1 (fun _ _ _ _ _ _ => none) ⟨1, 1, 1, 1, [], []⟩

/-- Counterexample to C5: on the mask `x`, whose only symbol is
unrecognised, the run ends not-found with the attempt counter 0 — but
`calculateTotalCombinations "x"` is also 0 (the empty charset contributes a
zero factor), so the counter is *not* strictly less than `SearchSpace`. -/
theorem invalid_mask_counter_not_lt :
    PoolReachable (fun _ _ _ _ _ _ => none) ⟨1, 1, 1, 1, [], []⟩ (initPool "x" 1)
      ⟨[], false, 0, [], [WorkerPC.finished]⟩ ∧
    PoolTerminal (fun _ _ _ _ _ _ => none) ⟨1, 1, 1, 1, [], []⟩
      ⟨[], false, 0, [], [WorkerPC.finished]⟩ ∧
    (⟨[], false, 0, [], [WorkerPC.finished]⟩ : PoolState).delivered = [] ∧
    ¬ ((⟨[], false, 0, [], [WorkerPC.finished]⟩ : PoolState).tried <
        calculateTotalCombinations "x") := by
  refine ⟨?_, ?_, rfl, ?_⟩
  · exact Relation.ReflTransGen.single
      (PoolStep.takeClosed [] [] false 0 [])
  · apply all_finished_terminal
    intro pc hpc
    simpa using hpc
  · decide

/-- C5 amended: a mask with an unrecognised symbol at any position makes the
generator abort with zero candidates, so every run ends not-found with the
attempt counter 0; but `calculateTotalCombinations` of such a mask is 0 as
well, so the counter *equals* SearchSpace instead of being strictly less
(and the `0` of the claim holds for a bad symbol at any position, not only
the first). -/
theorem invalid_mask_run (mask : String) (n : Nat) (kdf : KDF) (data : ScryptData)
    (h : ∃ m ∈ mask.toList, m ∉ (['a', 'd', 'l', 'u', 's'] : List Char)) :
    generatePasswords mask = [] ∧
    calculateTotalCombinations mask = 0 ∧
    ∀ s, PoolReachable kdf data (initPool mask n) s →
      s.tried = 0 ∧ s.delivered = [] ∧
      ¬ (s.tried < calculateTotalCombinations mask) := by
  obtain ⟨m, hm, hval⟩ := h
  have hcs := getCharset_unknown hval
  have hgen : generatePasswords mask = [] := generatePasswords_invalid hm hcs
  have hcalc : calculateTotalCombinations mask = 0 := by
    rw [calculateTotalCombinations_eq, searchSpaceNat_invalid hm hcs, Nat.zero_mod]
  refine ⟨hgen, hcalc, ?_⟩
  intro s hr
  have hnm : ∀ c ∈ generatePasswords mask, verifyPassword kdf c data = false := by
    rw [hgen]
    intro c hc
    cases hc
  obtain ⟨hf, hd, hpc, hpend, hfin, t, ht, heq⟩ :=
    invNoMatch_reach hnm (invNoMatch_init mask n) hr
  rw [hgen, List.length_nil] at heq
  have ht0 : t = 0 := by omega
  have : s.tried = 0 := by
    rw [ht, ht0, Nat.zero_mod]
  refine ⟨this, hd, ?_⟩
  rw [this, hcalc]
  omega

/-- Witness for the amended C5 at the mask `x` with one worker. -/
theorem invalid_mask_run_witness :
    generatePasswords "x" = [] ∧
    calculateTotalCombinations "x" = 0 ∧
    ∀ s, PoolReachable (fun _ _ _ _ _ _ => none) ⟨1, 1, 1, 1, [], []⟩
        (initPool "x" 1) s →
      s.tried = 0 ∧ s.delivered = [] ∧
      ¬ (s.tried < calculateTotalCombinations "x") :=
  invalid_mask_run "x" 1 (fun _ _ _ _ _ _ => none) ⟨1, 1, 1, 1, [], []⟩ (by decide)

theorem digitVal_digitChar {d : Nat} (h : d < 10) :
    digitVal (Char.ofNat ('0'.toNat + d)) = some d := by
  interval_cases d <;> decide

theorem natToDigitsRev_lt (n : Nat) : ∀ d ∈ natToDigitsRev n, d < 10 := by
  induction n using Nat.strong_induction_on with
  | _ n ih =>
    rw [natToDigitsRev]
    split
    · intro d hd
      rw [List.mem_singleton] at hd
      subst hd
      assumption
    · intro d hd
      rcases List.mem_cons.mp hd with rfl | hd
      · exact Nat.mod_lt _ (by omega)
      · exact ih (n / 10) (Nat.div_lt_self (by omega) (by omega)) d hd

theorem natToDigitsRev_ne_nil (n : Nat) : natToDigitsRev n ≠ [] := by
  rw [natToDigitsRev]
  split <;> simp

theorem natToDigitsRev_val (n : Nat) :
    (natToDigitsRev n).reverse.foldl (fun a d => a * 10 + d) 0 = n := by
  induction n using Nat.strong_induction_on with
  | _ n ih =>
    rw [natToDigitsRev]
    split
    · simp
    · rename_i h
      rw [List.reverse_cons, List.foldl_append,
        ih (n / 10) (Nat.div_lt_self (by omega) (by omega))]
      simp only [List.foldl_cons, List.foldl_nil]
      omega

theorem parseNatDigits_map (ds : List Nat) (hds : ∀ d ∈ ds, d < 10) :
    ∀ a : Nat,
      (ds.map (fun d => Char.ofNat ('0'.toNat + d))).foldl
        (fun acc c => acc.bind (fun x => (digitVal c).map (fun d => x * 10 + d)))
        (some a) = some (ds.foldl (fun x d => x * 10 + d) a) := by
  induction ds with
  | nil =>
    intro a
    rfl
  | cons d ds ih =>
    intro a
    rw [List.map_cons, List.foldl_cons, List.foldl_cons]
    have hstep : (some a).bind (fun x =>
        (digitVal (Char.ofNat ('0'.toNat + d))).map (fun e => x * 10 + e)) =
        some (a * 10 + d) := by
      rw [Option.some_bind, digitVal_digitChar (hds d (by simp)), Option.map_some']
    rw [hstep]
    exact ih (fun e he => hds e (by simp [he])) (a * 10 + d)

theorem parseNatDigits_natToDecimal (n : Nat) :
    parseNatDigits (natToDecimal n) = some n := by
  rw [natToDecimal, parseNatDigits,
    parseNatDigits_map _ (fun d hd => natToDigitsRev_lt n d (List.mem_reverse.mp hd)) 0,
    natToDigitsRev_val]

theorem natToDecimal_ne_nil (n : Nat) : natToDecimal n ≠ [] := by
  rw [natToDecimal]
  intro h
  rw [List.map_eq_nil_iff, List.reverse_eq_nil_iff] at h
  exact natToDigitsRev_ne_nil n h

theorem natToDecimal_digits (n : Nat) :
    ∀ c ∈ natToDecimal n, ∃ d, d < 10 ∧ c = Char.ofNat ('0'.toNat + d) := by
  intro c hc
  rw [natToDecimal] at hc
  obtain ⟨d, hd, rfl⟩ := List.mem_map.mp hc
  exact ⟨d, natToDigitsRev_lt n d (List.mem_reverse.mp hd), rfl⟩

theorem goAtoi_intToDecimal (i : Int) : goAtoi (intToDecimal i) = some i := by
  rw [intToDecimal]
  split
  · rename_i hneg
    rw [goAtoi]
    rw [if_neg (by decide), if_pos rfl,
      if_neg (by simpa [List.isEmpty_iff] using natToDecimal_ne_nil i.natAbs),
      parseNatDigits_natToDecimal]
    simp
    rw [abs_of_neg (by omega), neg_neg]
  · rename_i hpos
    cases hnd : natToDecimal i.toNat with
    | nil => exact absurd hnd (natToDecimal_ne_nil _)
    | cons c rest =>
      obtain ⟨d, hdlt, rfl⟩ := natToDecimal_digits i.toNat c (by rw [hnd]; simp)
      rw [goAtoi]
      rw [if_neg (by interval_cases d <;> decide),
        if_neg (by interval_cases d <;> decide), ← hnd,
        parseNatDigits_natToDecimal, Option.map_some']
      rw [Int.ofNat_eq_natCast, Int.toNat_of_nonneg (by omega)]

theorem hexDigitVal_hexDigitChar {h : Nat} (hh : h < 16) :
    hexDigitVal (hexDigitChar h) = some h := by
  interval_cases h <;> decide

theorem hexDecode_hexEncode (bs : List Nat) (hb : ∀ b ∈ bs, b < 256) :
    hexDecode (hexEncode bs) = some bs := by
  induction bs with
  | nil => rfl
  | cons b bs ih =>
    have hblt : b < 256 := hb b (by simp)
    have hcons : hexEncode (b :: bs) =
        hexDigitChar (b / 16) :: hexDigitChar (b % 16) :: hexEncode bs := rfl
    rw [hcons]
    simp only [hexDecode, hexDigitVal_hexDigitChar (show b / 16 < 16 by omega),
      hexDigitVal_hexDigitChar (show b % 16 < 16 by omega),
      ih (fun e he => hb e (by simp [he]))]
    have : b / 16 * 16 + b % 16 = b := by omega
    rw [this]

theorem dropWhile_of_none {l : List Char} (h : ∀ c ∈ l, goIsSpace c = false) :
    l.dropWhile goIsSpace = l := by
  cases l with
  | nil => rfl
  | cons c cs =>
    rw [List.dropWhile_cons, h c (by simp)]
    simp

theorem goTrimSpace_of_none {l : List Char} (h : ∀ c ∈ l, goIsSpace c = false) :
    goTrimSpace l = l := by
  rw [goTrimSpace, dropWhile_of_none h,
    dropWhile_of_none (fun c hc => h c (List.mem_reverse.mp hc)),
    List.reverse_reverse]

theorem splitOnChar_of_not_mem {sep : Char} {l : List Char} (h : sep ∉ l) :
    splitOnChar sep l = [l] := by
  induction l with
  | nil => rfl
  | cons c cs ih =>
    rw [splitOnChar, if_neg (fun hc => h (by simp [← hc])),
      ih (fun hc => h (by simp [hc]))]

theorem splitOnChar_append {sep : Char} {a : List Char} (b : List Char)
    (h : sep ∉ a) :
    splitOnChar sep (a ++ sep :: b) = a :: splitOnChar sep b := by
  induction a with
  | nil =>
    rw [List.nil_append, splitOnChar, if_pos rfl]
  | cons c cs ih =>
    rw [List.cons_append, splitOnChar, if_neg (fun hc => h (by simp [← hc])),
      ih (fun hc => h (by simp [hc]))]

theorem decChar_props {d : Nat} (h : d < 10) :
    goIsSpace (Char.ofNat ('0'.toNat + d)) = false ∧
      Char.ofNat ('0'.toNat + d) ≠ '*' := by
  interval_cases d <;> exact ⟨by decide, by decide⟩

theorem intToDecimal_chars (i : Int) :
    ∀ c ∈ intToDecimal i, goIsSpace c = false ∧ c ≠ '*' := by
  intro c hc
  rw [intToDecimal] at hc
  split at hc
  · rcases List.mem_cons.mp hc with rfl | hc
    · exact ⟨by decide, by decide⟩
    · obtain ⟨d, hd, rfl⟩ := natToDecimal_digits _ c hc
      exact decChar_props hd
  · obtain ⟨d, hd, rfl⟩ := natToDecimal_digits _ c hc
    exact decChar_props hd

theorem hexChar_props {h : Nat} (hh : h < 16) :
    goIsSpace (hexDigitChar h) = false ∧ hexDigitChar h ≠ '*' := by
  interval_cases h <;> exact ⟨by decide, by decide⟩

theorem hexEncode_chars {bs : List Nat} (hb : ∀ b ∈ bs, b < 256) :
    ∀ c ∈ hexEncode bs, goIsSpace c = false ∧ c ≠ '*' := by
  intro c hc
  rw [hexEncode, List.mem_flatMap] at hc
  obtain ⟨b, hbmem, hcmem⟩ := hc
  have hblt := hb b hbmem
  rcases List.mem_cons.mp hcmem with rfl | hcmem
  · exact hexChar_props (by omega)
  · rcases List.mem_cons.mp hcmem with rfl | hcmem
    · exact hexChar_props (by omega)
    · cases hcmem

theorem genRecord_chars {N r p keyLen : Int} {salt hash : List Nat}
    (hs : ∀ b ∈ salt, b < 256) (hh : ∀ b ∈ hash, b < 256) :
    ∀ c ∈ genRecord N r p keyLen salt hash, goIsSpace c = false := by
  intro c hc
  rw [genRecord] at hc
  have hstar : goIsSpace '*' = false := by decide
  rcases List.mem_append.mp hc with h | h
  · exact (intToDecimal_chars N c h).1
  rcases List.mem_cons.mp h with rfl | h
  · exact hstar
  rcases List.mem_append.mp h with h | h
  · exact (intToDecimal_chars r c h).1
  rcases List.mem_cons.mp h with rfl | h
  · exact hstar
  rcases List.mem_append.mp h with h | h
  · exact (intToDecimal_chars p c h).1
  rcases List.mem_cons.mp h with rfl | h
  · exact hstar
  rcases List.mem_append.mp h with h | h
  · exact (intToDecimal_chars keyLen c h).1
  rcases List.mem_cons.mp h with rfl | h
  · exact hstar
  rcases List.mem_append.mp h with h | h
  · exact (hexEncode_chars hs c h).1
  rcases List.mem_cons.mp h with rfl | h
  · exact hstar
  exact (hexEncode_chars hh c h).1

theorem parseFile_genRecord {N r p keyLen : Int} {salt hash : List Nat}
    (hs : ∀ b ∈ salt, b < 256) (hh : ∀ b ∈ hash, b < 256) :
    parseFile (genRecord N r p keyLen salt hash) =
      some ⟨N, r, p, keyLen, salt, hash⟩ := by
  rw [parseFile, goTrimSpace_of_none (genRecord_chars hs hh), genRecord,
    splitOnChar_append _ (fun hmem => (intToDecimal_chars N '*' hmem).2 rfl),
    splitOnChar_append _ (fun hmem => (intToDecimal_chars r '*' hmem).2 rfl),
    splitOnChar_append _ (fun hmem => (intToDecimal_chars p '*' hmem).2 rfl),
    splitOnChar_append _ (fun hmem => (intToDecimal_chars keyLen '*' hmem).2 rfl),
    splitOnChar_append _ (fun hmem => (hexEncode_chars hs '*' hmem).2 rfl),
    splitOnChar_of_not_mem (fun hmem => (hexEncode_chars hh '*' hmem).2 rfl)]
  simp only [goAtoi_intToDecimal, hexDecode_hexEncode salt hs,
    hexDecode_hexEncode hash hh]

/-- C6: round trip: the six-field record `N*r*p*keyLen*hex(salt)*hex(digest)`
emitted by gen.go for a password the scrypt primitive accepts, when parsed
back by `parseFile` and checked against the original password with
`verifyPassword`, is reported as a match. -/
theorem genRecord_roundTrip (kdf : KDF) (password : String) (N r p keyLen : Int)
    (salt hash : List Nat)
    (hsalt : ∀ b ∈ salt, b < 256) (hhash : ∀ b ∈ hash, b < 256)
    (hk : computeScryptHash kdf password salt N r p keyLen = some hash) :
    parseFile (genRecord N r p keyLen salt hash) =
      some ⟨N, r, p, keyLen, salt, hash⟩ ∧
    verifyPassword kdf password ⟨N, r, p, keyLen, salt, hash⟩ = true := by
  refine ⟨parseFile_genRecord hsalt hhash, ?_⟩
  rw [computeScryptHash] at hk
  rw [verifyPassword]
  simp only [hk, beq_self_eq_true]

/-- Witness for C6 at concrete parameters and a primitive that derives the
digest `[171]`. -/
theorem genRecord_roundTrip_witness :
    parseFile (genRecord 16384 8 1 32 [1, 255] [171]) =
      some ⟨16384, 8, 1, 32, [1, 255], [171]⟩ ∧
    verifyPassword (fun _ _ _ _ _ _ => some [171]) "pw"
      ⟨16384, 8, 1, 32, [1, 255], [171]⟩ = true :=
  genRecord_roundTrip (fun _ _ _ _ _ _ => some [171]) "pw" 16384 8 1 32
    [1, 255] [171] (by decide) (by decide) rfl

theorem progEmit_reach {kdf : KDF} {data : ScryptData} (L : List String)
    (hcap : L.length ≤ 10000) (ws : List WorkerPC) :
    ∀ k, k ≤ L.length →
      ProgReachable kdf data ⟨L, [], false, 0, [], ws, none⟩
        ⟨L.drop k, L.take k, false, 0, [], ws, none⟩ := by
  intro k
  induction k with
  | zero =>
    intro _
    exact Relation.ReflTransGen.refl
  | succ k ih =>
    intro hk
    have hk' : k < L.length := hk
    have hdrop : L.drop k = L[k] :: L.drop (k + 1) := List.drop_eq_getElem_cons hk'
    have htake : L.take k ++ [L[k]] = L.take (k + 1) := List.take_concat_get' L k hk'
    have hstep : ProgStep kdf data ⟨L.drop k, L.take k, false, 0, [], ws, none⟩
        ⟨L.drop (k + 1), L.take (k + 1), false, 0, [], ws, none⟩ := by
      rw [hdrop, ← htake]
      exact ProgStep.emit L[k] (L.drop (k + 1)) (L.take k) false 0 [] ws
        (by rw [List.length_take]; omega)
    exact Relation.ReflTransGen.tail (ih (by omega)) hstep

/-- C2 (code bug): `main`'s not-found report is not synchronised with the
workers.  `wg.Add(1)` covers only the generator goroutine, never the
workers, and the `done` signal fires on a timer after the generator's wait
group is satisfied, so the program can print `PASSWORD NOT FOUND` while
every candidate is still sitting unverified in the buffered channel.
Concretely, on mask `dd` with one worker and a credential that nothing
matches, the program reaches the report `notFound 0` with the whole
space still queued, although `SearchSpace = calculateTotalCombinations
"dd" = 100 > 0`; the claimed `AttemptCounter == SearchSpace` at the report
point therefore fails on the code, while no candidate of the space
verifies. -/
theorem premature_not_found_report :
    ProgReachable (fun _ _ _ _ _ _ => none) ⟨1, 1, 1, 1, [], []⟩
      (progInit "dd" 1)
      ⟨[], generatePasswords "dd", false, 0, [], [WorkerPC.idle],
        some (Report.notFound 0)⟩ ∧
    (∀ c ∈ generatePasswords "dd",
      verifyPassword (fun _ _ _ _ _ _ => none) c ⟨1, 1, 1, 1, [], []⟩ = false) ∧
    (0 : Nat) < calculateTotalCombinations "dd" := by
  refine ⟨?_, fun c _ => rfl, by decide⟩
  have hlen : (generatePasswords "dd").length ≤ 10000 := by decide
  have h1 : ProgReachable (fun _ _ _ _ _ _ => none) ⟨1, 1, 1, 1, [], []⟩
      ⟨generatePasswords "dd", [], false, 0, [], [WorkerPC.idle], none⟩
      ⟨(generatePasswords "dd").drop (generatePasswords "dd").length,
        (generatePasswords "dd").take (generatePasswords "dd").length,
        false, 0, [], [WorkerPC.idle], none⟩ :=
    progEmit_reach _ hlen _ _ le_rfl
  rw [List.drop_length, List.take_length] at h1
  refine Relation.ReflTransGen.tail h1 ?_
  exact ProgStep.reportNotFound (generatePasswords "dd") false 0 [] [WorkerPC.idle]
